import Mathlib

/-!
# c7a ChannelMultiplexer: a shallow embedding

Source: `c7a/data/channel_multiplexer.hpp`.

The multiplexer is embedded as a record of its data members plus three pieces
of bookkeeping that make its effects observable:

* `channel_objs`  every `Channel` object ever built by `std::make_shared<Channel>`,
  in construction order; a `ChannelPtr` is the position of the object in it;
* `byte_blocks`  every `ByteBlock` ever obtained from `ByteBlock::Allocate`,
  with its current contents; a `ByteBlockPtr` is a position in it;
* `trace`  the calls made on the collaborators (dispatcher, channels, group,
  mutex), in program order.

`size_t` values are natural numbers, and the two places where the code
computes with them are reduced modulo `2 ^ 64`: the flattened sender rank
`sender_rank * num_workers_per_node_ + sender_local_worker_id`, and the
increment `next_id_[w] + 1` of the per-worker id counter in `AllocateNext`.

`assert` and `die_unless` end the process: the operations that contain them
return a `Res`, whose `abort` case carries the state at the moment of death.
-/

namespace c7a

/-! ## Collaborators that live outside `channel_multiplexer.hpp` -/

/-- One octet of a network buffer. -/
abbrev Byte := Fin 256

/-- The modulus of `size_t` arithmetic. -/
def SIZE_T_MOD : Nat := 2 ^ 64

/-- Fields of `StreamBlockHeader` read by the multiplexer. -/
structure StreamBlockHeader where
  channel_id : Nat
  size : Nat
  first_item : Nat
  nitems : Nat
  sender_rank : Nat
  receiver_local_worker_id : Nat
  sender_local_worker_id : Nat
deriving DecidableEq, Repr

/-- Modelled from the spec: the header codec of `block_writer.hpp`, which the
multiplexer only calls.  `sizeofHeader` is `sizeof(StreamBlockHeader)`,
`ParseHeader` is `StreamBlockHeader::ParseHeader` on the bytes of a valid
buffer, `IsStreamEnd` is `StreamBlockHeader::IsStreamEnd`.  The bit layout and
the end-of-stream encoding are left to the codec, so all three are parameters
of the embedding. -/
structure Codec where
  sizeofHeader : Nat
  ParseHeader : List Byte → StreamBlockHeader
  IsStreamEnd : StreamBlockHeader → Bool

/-- Modelled from the spec: `net::Buffer`.  A buffer is either invalid (the
transport signals a closed or broken connection) or carries bytes. -/
inductive Buffer where
  | invalid : Buffer
  | valid (bytes : List Byte) : Buffer
deriving DecidableEq, Repr

/-- Method `Buffer::IsValid`. -/
def Buffer.IsValid : Buffer → Bool
  | .invalid => false
  | .valid _ => true

/-- Method `Buffer::data`: the bytes held; an invalid buffer holds none. -/
def Buffer.data : Buffer → List Byte
  | .invalid => []
  | .valid bytes => bytes

/-- Method `Buffer::size`. -/
def Buffer.size (b : Buffer) : Nat := b.data.length

/-- Modelled from the spec: `net::Group`, of which the multiplexer uses
`num_connections()`, `my_connection_id()` and `connection(id)`. -/
structure Group where
  num_connections : Nat
  my_connection_id : Nat
deriving DecidableEq, Repr

/-- A `net::Connection&`, identified by its index in the group. -/
structure Connection where
  id : Nat
deriving DecidableEq, Repr

/-- Method `Group::connection(id)`. -/
def Group.connection (_g : Group) (id : Nat) : Connection := ⟨id⟩

/-- A `ChannelPtr` (`std::shared_ptr<Channel>`): the position of the pointee
among the constructed channel objects. -/
abbrev ChannelPtr := Nat

/-- A `ByteBlockPtr`: the position of the pointee among the allocated byte
blocks. -/
abbrev ByteBlockPtr := Nat

/-- The arguments a `Channel` is constructed with:
`Channel(id, *group_, dispatcher_, local_worker_id, num_workers_per_node_)`.
The dispatcher argument is always the multiplexer's own and is not recorded. -/
structure Channel where
  id : Nat
  group : Group
  local_worker_id : Nat
  num_workers_per_node : Nat
deriving DecidableEq, Repr

/-- Modelled from the spec: `Block`, a view
`(byte block, offset, length, first_item, nitems)`. -/
structure Block where
  bytes : ByteBlockPtr
  offset : Nat
  length : Nat
  first_item : Nat
  nitems : Nat
deriving DecidableEq, Repr

/-- The two completion closures the multiplexer hands to `AsyncRead`. -/
inductive Callback where
  /-- Closure `[this](Connection& s, net::Buffer&& buffer)` calling `OnStreamBlockHeader`. -/
  | header : Callback
  /-- Closure `[this, header, channel](...)` calling `OnStreamBlock`. -/
  | block (header : StreamBlockHeader) (channel : ChannelPtr) : Callback
deriving DecidableEq, Repr

/-- An `AsyncRead` the dispatcher has accepted and not yet completed. -/
structure AsyncReadRequest where
  conn : Connection
  nbytes : Nat
  callback : Callback
deriving DecidableEq, Repr

/-- Modelled from the spec: `net::DispatcherThread`, reduced to the reads it
still owes a completion and whether `Terminate` was called. -/
structure DispatcherThread where
  pending : List AsyncReadRequest
  terminated : Bool
deriving DecidableEq, Repr

/-- Calls the multiplexer makes on its collaborators. -/
inductive Event where
  | lock : Event
  | unlock : Event
  | AsyncRead (s : Connection) (nbytes : Nat) (cb : Callback) : Event
  | OnCloseStream (channel : ChannelPtr) (sender_worker_rank : Nat) : Event
  | OnStreamBlock (channel : ChannelPtr) (sender_worker_rank : Nat) (block : Block) : Event
  | ChannelClose (channel : ChannelPtr) : Event
  | Terminate : Event
  | GroupClose : Event
deriving DecidableEq, Repr

/-! ## `std::map<std::pair<size_t, size_t>, ChannelPtr>` -/

/-- Key of the channel table: `<worker id, channel id>`. -/
abbrev Key := Nat × Nat

/-- Comparison `operator<` of `std::pair<size_t, size_t>`. -/
def keyLt (a b : Key) : Bool :=
  decide (a.1 < b.1) || (!decide (b.1 < a.1) && decide (a.2 < b.2))

/-- Method `std::map::find`: the mapped value of the entry whose key is equivalent to
`k`, that is, neither smaller nor greater. -/
def map_find : List (Key × ChannelPtr) → Key → Option ChannelPtr
  | [], _ => none
  | (k', v) :: rest, k =>
    if !keyLt k k' && !keyLt k' k then some v else map_find rest k

/-- Method `std::map::insert`: puts the entry at its place in key order; when an
equivalent key is present the map is left as it is. -/
def map_insert : List (Key × ChannelPtr) → Key → ChannelPtr → List (Key × ChannelPtr)
  | [], k, v => [(k, v)]
  | (k', v') :: rest, k, v =>
    if keyLt k k' then (k, v) :: (k', v') :: rest
    else if keyLt k' k then (k', v') :: map_insert rest k v
    else (k', v') :: rest

/-! ## The multiplexer -/

/-- Data members of `ChannelMultiplexer` and the bookkeeping described in the
header of this file. -/
structure ChannelMultiplexer where
  dispatcher_ : DispatcherThread
  channels_ : List (Key × ChannelPtr)
  group_ : Option Group
  next_id_ : List Nat
  num_workers_per_node_ : Nat
  channel_objs : List Channel
  byte_blocks : List (List Byte)
  trace : List Event
deriving DecidableEq, Repr

/-- Why the process ended. -/
inductive Fault where
  | assertion : Fault
  | die : Fault
deriving DecidableEq, Repr

/-- Outcome of an operation that may end the process. -/
inductive Res (α : Type) where
  | ok (val : α) (m : ChannelMultiplexer) : Res α
  | abort (f : Fault) (m : ChannelMultiplexer) : Res α
deriving Repr

/-- The state an operation leaves behind when it returns. -/
def Res.toOption {α : Type} : Res α → Option ChannelMultiplexer
  | .ok _ m => some m
  | .abort _ _ => none

namespace ChannelMultiplexer

/-- Appends one call to the trace. -/
def emit (m : ChannelMultiplexer) (e : Event) : ChannelMultiplexer :=
  { m with trace := m.trace ++ [e] }

/-- Constructor `explicit ChannelMultiplexer(size_t num_workers_per_node)`. -/
def ctor (num_workers_per_node : Nat) : ChannelMultiplexer :=
  { dispatcher_ := ⟨[], false⟩
    channels_ := []
    group_ := none
    next_id_ := List.replicate num_workers_per_node 0
    num_workers_per_node_ := num_workers_per_node
    channel_objs := []
    byte_blocks := []
    trace := [] }

/-- Method `dispatcher_.AsyncRead(s, nbytes, cb)`. -/
def AsyncRead (m : ChannelMultiplexer) (s : Connection) (nbytes : Nat) (cb : Callback) :
    ChannelMultiplexer :=
  { m with
    dispatcher_ := { m.dispatcher_ with pending := m.dispatcher_.pending ++ [⟨s, nbytes, cb⟩] }
    trace := m.trace ++ [Event.AsyncRead s nbytes cb] }

/-- Method `AsyncReadStreamBlockHeader(Connection& s)`. -/
def AsyncReadStreamBlockHeader (c : Codec) (m : ChannelMultiplexer) (s : Connection) :
    ChannelMultiplexer :=
  m.AsyncRead s c.sizeofHeader Callback.header

/-- The `for` loop of `Connect`, with `n` iterations left and loop variable `id`. -/
def ConnectLoop (c : Codec) (g : Group) : Nat → Nat → ChannelMultiplexer → ChannelMultiplexer
  | 0, _, m => m
  | n + 1, id, m =>
    if id = g.my_connection_id then ConnectLoop c g n (id + 1) m
    else ConnectLoop c g n (id + 1) (AsyncReadStreamBlockHeader c m (g.connection id))

/-- Method `void Connect(net::Group* group)`. -/
def Connect (c : Codec) (m : ChannelMultiplexer) (group : Group) : ChannelMultiplexer :=
  ConnectLoop c group group.num_connections 0 { m with group_ := some group }

/-- Method `bool HasChannel(size_t id, size_t local_worker_id)`. -/
def HasChannel (m : ChannelMultiplexer) (id local_worker_id : Nat) : Bool :=
  (map_find m.channels_ (local_worker_id, id)).isSome

/-- Method `size_t AllocateNext(size_t local_worker_id)`; the increment is in
`size_t` arithmetic. -/
def AllocateNext (m : ChannelMultiplexer) (local_worker_id : Nat) : Res Nat :=
  if local_worker_id < m.next_id_.length then
    let v := (m.next_id_.getD local_worker_id 0 + 1) % SIZE_T_MOD
    .ok v { m with next_id_ := m.next_id_.set local_worker_id v }
  else .abort .assertion m

/-- Method `ChannelPtr _GetOrCreateChannel(size_t id, size_t local_worker_id)`. -/
def _GetOrCreateChannel (m : ChannelMultiplexer) (id local_worker_id : Nat) : Res ChannelPtr :=
  match m.group_ with
  | none => .abort .assertion m
  | some g =>
    match map_find m.channels_ (local_worker_id, id) with
    | some channel => .ok channel m
    | none =>
      let channel : ChannelPtr := m.channel_objs.length
      .ok channel
        { m with
          channel_objs := m.channel_objs ++ [⟨id, g, local_worker_id, m.num_workers_per_node_⟩]
          channels_ := map_insert m.channels_ (local_worker_id, id) channel }

/-- Method `ChannelPtr GetOrCreateChannel(size_t id, size_t local_worker_id)`: the
private lookup under a `std::lock_guard`. -/
def GetOrCreateChannel (m : ChannelMultiplexer) (id local_worker_id : Nat) : Res ChannelPtr :=
  match _GetOrCreateChannel (m.emit .lock) id local_worker_id with
  | .ok channel m1 => .ok channel (m1.emit .unlock)
  | .abort f m1 => .abort f m1

/-- The flattened rank
`header.sender_rank * num_workers_per_node_ + header.sender_local_worker_id`
in `size_t` arithmetic. -/
def sender_worker_rank (m : ChannelMultiplexer) (header : StreamBlockHeader) : Nat :=
  (header.sender_rank * m.num_workers_per_node_ + header.sender_local_worker_id) % SIZE_T_MOD

/-- Algorithm `std::copy(first, last, d_first)` into a byte block: the source bytes are
written one by one from position `i` on. -/
def std_copy : List Byte → Nat → List Byte → List Byte
  | [], _, dst => dst
  | b :: bs, i, dst => std_copy bs (i + 1) (dst.set i b)

/-- Method `ByteBlock::Allocate(size)`: a new byte block of `size` bytes. -/
def ByteBlockAllocate (m : ChannelMultiplexer) (size : Nat) : ByteBlockPtr × ChannelMultiplexer :=
  (m.byte_blocks.length, { m with byte_blocks := m.byte_blocks ++ [List.replicate size 0] })

/-- Method `void OnStreamBlock(Connection& s, const StreamBlockHeader& header,
const ChannelPtr& channel, net::Buffer&& buffer)`. -/
def OnStreamBlock (c : Codec) (m : ChannelMultiplexer) (s : Connection)
    (header : StreamBlockHeader) (channel : ChannelPtr) (buffer : Buffer) : Res Unit :=
  if header.size = buffer.size then
    let (bytes, m1) := m.ByteBlockAllocate buffer.size
    let m2 := { m1 with
      byte_blocks := m1.byte_blocks.modify (fun dst => std_copy buffer.data 0 dst) bytes }
    let rank := m2.sender_worker_rank header
    let m3 := m2.emit
      (.OnStreamBlock channel rank ⟨bytes, 0, header.size, header.first_item, header.nitems⟩)
    .ok () (AsyncReadStreamBlockHeader c m3 s)
  else .abort .die m

/-- Method `void OnStreamBlockHeader(Connection& s, net::Buffer&& buffer)`. -/
def OnStreamBlockHeader (c : Codec) (m : ChannelMultiplexer) (s : Connection)
    (buffer : Buffer) : Res Unit :=
  match buffer with
  | .invalid => .ok () m
  | .valid bytes =>
    let header := c.ParseHeader bytes
    let id := header.channel_id
    let local_worker := header.receiver_local_worker_id
    match m.GetOrCreateChannel id local_worker with
    | .abort f m1 => .abort f m1
    | .ok channel m1 =>
      let rank := m1.sender_worker_rank header
      if c.IsStreamEnd header then
        .ok () (AsyncReadStreamBlockHeader c (m1.emit (.OnCloseStream channel rank)) s)
      else
        .ok () (m1.AsyncRead s header.size (.block header channel))

/-- The loop `for (auto& ch : channels_) ch.second->Close();`. -/
def closeAll : List (Key × ChannelPtr) → ChannelMultiplexer → ChannelMultiplexer
  | [], m => m
  | ch :: rest, m => closeAll rest (m.emit (.ChannelClose ch.2))

/-- Method `~ChannelMultiplexer()`. -/
def dtor (m : ChannelMultiplexer) : ChannelMultiplexer :=
  let m1 := if m.group_.isSome then closeAll m.channels_ m else m
  let m2 := { m1.emit .Terminate with
    dispatcher_ := { m1.dispatcher_ with terminated := true } }
  if m2.group_.isSome then m2.emit .GroupClose else m2

end ChannelMultiplexer

/-! ## Executions -/

/-- What can happen to a live multiplexer: a call of its public interface, or
the dispatcher completing the `i`-th read it owes with some buffer. -/
inductive Op where
  | Connect (group : Group) : Op
  | HasChannel (id local_worker_id : Nat) : Op
  | AllocateNext (local_worker_id : Nat) : Op
  | GetOrCreateChannel (id local_worker_id : Nat) : Op
  | complete (i : Nat) (buffer : Buffer) : Op
deriving DecidableEq, Repr

/-- The dispatcher runs the completion closure of a request. -/
def invoke (c : Codec) (m : ChannelMultiplexer) (r : AsyncReadRequest) (buffer : Buffer) :
    Res Unit :=
  match r.callback with
  | .header => m.OnStreamBlockHeader c r.conn buffer
  | .block header channel => m.OnStreamBlock c r.conn header channel buffer

/-- One step of an execution; `none` when the step is not possible (no such
pending read) or ends the process. -/
def applyOp (c : Codec) (m : ChannelMultiplexer) : Op → Option ChannelMultiplexer
  | .Connect group => some (m.Connect c group)
  | .HasChannel _ _ => some m
  | .AllocateNext w => (m.AllocateNext w).toOption
  | .GetOrCreateChannel id w => (m.GetOrCreateChannel id w).toOption
  | .complete i buffer =>
    match m.dispatcher_.pending[i]? with
    | none => none
    | some r =>
      (invoke c { m with dispatcher_ :=
        { m.dispatcher_ with pending := m.dispatcher_.pending.eraseIdx i } } r buffer).toOption

/-- Runs a sequence of steps. -/
def runOps (c : Codec) : ChannelMultiplexer → List Op → Option ChannelMultiplexer
  | m, [] => some m
  | m, op :: ops =>
    match applyOp c m op with
    | none => none
    | some m1 => runOps c m1 ops

/-! ## Observations on traces and executions -/

/-- The calls on channels made from the network path. -/
def Event.isChannelCallback : Event → Bool
  | .OnCloseStream _ _ => true
  | .OnStreamBlock _ _ _ => true
  | _ => false

/-- The reads handed to the dispatcher. -/
def Event.isRead : Event → Bool
  | .AsyncRead _ _ _ => true
  | _ => false

/-- The calls recorded between state `m` and a later state `m1`. -/
def emitted (m m1 : ChannelMultiplexer) : List Event := m1.trace.drop m.trace.length

/-- The header reads `Connect` issues from loop position `id` on, for `n`
iterations. -/
def ChannelMultiplexer.connectReads (c : Codec) (g : Group) (id n : Nat) : List AsyncReadRequest :=
  ((List.range' id n).filter (fun i => decide (i ≠ g.my_connection_id))).map
    (fun i => ⟨g.connection i, c.sizeofHeader, .header⟩)

/-- The trace entry of an accepted read. -/
def readEvent (r : AsyncReadRequest) : Event := .AsyncRead r.conn r.nbytes r.callback

/-- Entries of the table are in strictly increasing key order, as in a
`std::map`. -/
def KeySorted (t : List (Key × ChannelPtr)) : Prop :=
  t.Pairwise (fun a b => keyLt a.1 b.1 = true)

/-- The table and the constructed channel objects describe each other. -/
structure TableInv (t : List (Key × ChannelPtr)) (objs : List Channel) : Prop where
  sorted : KeySorted t
  nodup : (t.map Prod.snd).Nodup
  bound : ∀ key ch, (key, ch) ∈ t →
    ∃ obj, objs[ch]? = some obj ∧ (obj.local_worker_id, obj.id) = key
  stored : ∀ ch obj, objs[ch]? = some obj →
    map_find t (obj.local_worker_id, obj.id) = some ch

/-- What holds in every state of an execution of a multiplexer built for `k`
workers per node. -/
structure Inv (k : Nat) (m : ChannelMultiplexer) : Prop where
  workers : m.num_workers_per_node_ = k
  counters : m.next_id_.length = k
  connected : m.group_ = none → m.dispatcher_.pending = []
  table : TableInv m.channels_ m.channel_objs

/-- A codec for evaluating the embedding on concrete frames: seven bytes, one
per field in declaration order; a header of size zero marks the end of a
stream. -/
def sampleCodec : Codec where
  sizeofHeader := 7
  ParseHeader := fun bytes =>
    { channel_id := (bytes.getD 0 0).val
      size := (bytes.getD 1 0).val
      first_item := (bytes.getD 2 0).val
      nitems := (bytes.getD 3 0).val
      sender_rank := (bytes.getD 4 0).val
      receiver_local_worker_id := (bytes.getD 5 0).val
      sender_local_worker_id := (bytes.getD 6 0).val }
  IsStreamEnd := fun header => header.size == 0

/-- The key `(id, local_worker_id)` whose channel a step asks the table for: a
call of `GetOrCreateChannel`, or a header read completing with a valid buffer,
which asks for the channel named in the header. -/
def requestedKey (c : Codec) (m : ChannelMultiplexer) : Op → Option (Nat × Nat)
  | .GetOrCreateChannel id w => some (id, w)
  | .complete i (.valid bytes) =>
    match m.dispatcher_.pending[i]? with
    | some r =>
      match r.callback with
      | .header =>
        some ((c.ParseHeader bytes).channel_id, (c.ParseHeader bytes).receiver_local_worker_id)
      | .block _ _ => none
    | none => none
  | _ => none

/-- The keys asked for along an execution, in order. -/
def requestedKeys (c : Codec) : ChannelMultiplexer → List Op → List (Nat × Nat)
  | _, [] => []
  | m, op :: ops =>
    (requestedKey c m op).toList ++
      match applyOp c m op with
      | some m1 => requestedKeys c m1 ops
      | none => []

/-- How a get-or-create of `(id, w)` relates the table and the constructed
channels before (`m`) and after (`m1`): the channel is there and nothing
changes, or it is not and one channel bound to `(id, w)` is constructed and
inserted. -/
def TableStep (m m1 : ChannelMultiplexer) (id w : Nat) : Prop :=
  ((map_find m.channels_ (w, id)).isSome = true ∧
      m1.channels_ = m.channels_ ∧ m1.channel_objs = m.channel_objs) ∨
    (∃ g, m.group_ = some g ∧ map_find m.channels_ (w, id) = none ∧
      m1.channels_ = map_insert m.channels_ (w, id) m.channel_objs.length ∧
      m1.channel_objs = m.channel_objs ++ [⟨id, g, w, m.num_workers_per_node_⟩])

/-- A run used to evaluate the embedding: attach a group of two, create
channel 7 for worker 1 locally, then receive an end-of-stream header for
channel 5 of worker 2 and allocate two ids for worker 1. -/
def sampleOps : List Op :=
  [.Connect ⟨2, 0⟩, .GetOrCreateChannel 7 1, .complete 0 (.valid [5, 0, 0, 0, 3, 2, 1]),
    .AllocateNext 1, .AllocateNext 1]

/-- The state the sample run ends in. -/
def sampleState : ChannelMultiplexer :=
  (runOps sampleCodec (ChannelMultiplexer.ctor 4) sampleOps).getD (ChannelMultiplexer.ctor 4)

/-- Whether a step is a call of `Connect`. -/
def Op.isConnect : Op → Bool
  | .Connect _ => true
  | _ => false

/-- The acquisitions and releases of `mutex_`. -/
def Event.isMutex : Event → Bool
  | .lock => true
  | .unlock => true
  | _ => false

/-- The reads the dispatcher still owes on connection `s`. -/
def outstanding (m : ChannelMultiplexer) (s : Connection) : List AsyncReadRequest :=
  m.dispatcher_.pending.filter (fun r => decide (r.conn = s))

/-- Every pending payload read asks for as many bytes as the header captured
by its closure announces. -/
def PayloadReadsExact (m : ChannelMultiplexer) : Prop :=
  ∀ r ∈ m.dispatcher_.pending, ∀ header channel,
    r.callback = .block header channel → r.nbytes = header.size

/-- The pending reads are on pairwise different connections. -/
def OneReadPerConnection (m : ChannelMultiplexer) : Prop :=
  (m.dispatcher_.pending.map AsyncReadRequest.conn).Nodup

/-- The sample state in which a payload is awaited: a group of two is attached
and a data header announcing three bytes for channel 5 of worker 2 has arrived
on connection 1. -/
def sampleAwaitPayload : ChannelMultiplexer :=
  (runOps sampleCodec (ChannelMultiplexer.ctor 4)
    [.Connect ⟨2, 0⟩, .complete 0 (.valid [5, 3, 0, 1, 3, 2, 1])]).getD (ChannelMultiplexer.ctor 4)

/-- The run of `2 ^ 64 - 1` calls `AllocateNext(0)`, after which the counter of
worker 0 holds the largest `size_t`. -/
def wrapOps : List Op := List.replicate (SIZE_T_MOD - 1) (.AllocateNext 0)

/-! ## The channel table as an ordered map -/

theorem keyLt_iff (a b : Key) :
    keyLt a b = true ↔ a.1 < b.1 ∨ (a.1 = b.1 ∧ a.2 < b.2) := by
  simp only [keyLt, Bool.or_eq_true, Bool.and_eq_true, decide_eq_true_eq, Bool.not_eq_true',
    decide_eq_false_iff_not]
  omega

theorem keyLt_false_iff (a b : Key) :
    keyLt a b = false ↔ b.1 < a.1 ∨ (a.1 = b.1 ∧ b.2 ≤ a.2) := by
  rw [← Bool.not_eq_true, keyLt_iff]
  omega

theorem keyEquiv_iff (a b : Key) :
    (!keyLt a b && !keyLt b a) = true ↔ a = b := by
  simp only [Bool.and_eq_true, Bool.not_eq_true', keyLt_false_iff]
  constructor
  · intro h
    apply Prod.ext <;> omega
  · rintro rfl
    omega

theorem keyLt_trans {a b c : Key} (hab : keyLt a b = true) (hbc : keyLt b c = true) :
    keyLt a c = true := by
  rw [keyLt_iff] at *
  omega

theorem map_find_cons (k' : Key) (v : ChannelPtr) (rest : List (Key × ChannelPtr)) (k : Key) :
    map_find ((k', v) :: rest) k = if k = k' then some v else map_find rest k := by
  simp only [map_find]
  by_cases h : k = k'
  · rw [if_pos ((keyEquiv_iff k k').2 h), if_pos h]
  · rw [if_neg (fun hc => h ((keyEquiv_iff k k').1 hc)), if_neg h]

theorem map_find_some_mem {t : List (Key × ChannelPtr)} {k : Key} {v : ChannelPtr}
    (h : map_find t k = some v) : (k, v) ∈ t := by
  induction t with
  | nil => simp [map_find] at h
  | cons e rest ih =>
    obtain ⟨k', v'⟩ := e
    rw [map_find_cons] at h
    by_cases hk : k = k'
    · rw [if_pos hk] at h
      cases h
      subst hk
      exact List.mem_cons_self _ _
    · rw [if_neg hk] at h
      exact List.mem_cons_of_mem _ (ih h)

theorem map_find_insert_self {t : List (Key × ChannelPtr)} {k : Key} (v : ChannelPtr)
    (h : map_find t k = none) : map_find (map_insert t k v) k = some v := by
  induction t with
  | nil => simp [map_insert, map_find_cons]
  | cons e rest ih =>
    obtain ⟨k', v'⟩ := e
    rw [map_find_cons] at h
    by_cases hk : k = k'
    · rw [if_pos hk] at h
      cases h
    · rw [if_neg hk] at h
      simp only [map_insert]
      split
      · simp [map_find_cons]
      · split
        · rw [map_find_cons, if_neg hk]
          exact ih h
        · rename_i h1 h2
          exact absurd ((keyEquiv_iff k k').1 (by simp [h1, h2])) hk

theorem map_find_insert_ne (t : List (Key × ChannelPtr)) {k k1 : Key} (v : ChannelPtr)
    (hne : k1 ≠ k) : map_find (map_insert t k v) k1 = map_find t k1 := by
  induction t with
  | nil =>
    simp only [map_insert]
    rw [map_find_cons, if_neg hne]
  | cons e rest ih =>
    obtain ⟨k', v'⟩ := e
    simp only [map_insert]
    split
    · rw [map_find_cons, if_neg hne]
    · split
      · rw [map_find_cons, map_find_cons, ih]
      · rfl

theorem map_insert_perm {t : List (Key × ChannelPtr)} {k : Key} (v : ChannelPtr)
    (h : map_find t k = none) : (map_insert t k v).Perm ((k, v) :: t) := by
  induction t with
  | nil => simp [map_insert]
  | cons e rest ih =>
    obtain ⟨k', v'⟩ := e
    rw [map_find_cons] at h
    by_cases hk : k = k'
    · rw [if_pos hk] at h
      cases h
    · rw [if_neg hk] at h
      simp only [map_insert]
      split
      · exact List.Perm.refl _
      · split
        · exact ((ih h).cons (k', v')).trans (List.Perm.swap _ _ _)
        · rename_i h1 h2
          exact absurd ((keyEquiv_iff k k').1 (by simp [h1, h2])) hk

theorem map_insert_sorted {t : List (Key × ChannelPtr)} {k : Key} (v : ChannelPtr)
    (hs : KeySorted t) (h : map_find t k = none) : KeySorted (map_insert t k v) := by
  induction t with
  | nil => simp [map_insert, KeySorted]
  | cons e rest ih =>
    obtain ⟨k', v'⟩ := e
    have hs' := List.pairwise_cons.1 hs
    rw [map_find_cons] at h
    by_cases hk : k = k'
    · rw [if_pos hk] at h
      cases h
    · rw [if_neg hk] at h
      simp only [map_insert]
      split
      · rename_i h1
        refine List.pairwise_cons.2 ⟨?_, hs⟩
        intro b hb
        rcases List.mem_cons.1 hb with rfl | hb
        · exact h1
        · exact keyLt_trans h1 (hs'.1 b hb)
      · split
        · rename_i h1 h2
          refine List.pairwise_cons.2 ⟨?_, ih hs'.2 h⟩
          intro b hb
          rcases List.mem_cons.1 ((map_insert_perm v h).mem_iff.1 hb) with rfl | hb
          · exact h2
          · exact hs'.1 b hb
        · exact hs

/-! ## What each operation does to the state -/

namespace ChannelMultiplexer

theorem GetOrCreateChannel_unattached (m : ChannelMultiplexer) (id w : Nat)
    (hg : m.group_ = none) :
    m.GetOrCreateChannel id w = .abort .assertion (m.emit .lock) := by
  simp [GetOrCreateChannel, _GetOrCreateChannel, emit, hg]

theorem GetOrCreateChannel_found (m : ChannelMultiplexer) (id w : Nat) {g : Group}
    {ch : ChannelPtr} (hg : m.group_ = some g)
    (hf : map_find m.channels_ (w, id) = some ch) :
    m.GetOrCreateChannel id w = .ok ch { m with trace := m.trace ++ [.lock, .unlock] } := by
  simp [GetOrCreateChannel, _GetOrCreateChannel, emit, hg, hf]

theorem GetOrCreateChannel_new (m : ChannelMultiplexer) (id w : Nat) {g : Group}
    (hg : m.group_ = some g) (hf : map_find m.channels_ (w, id) = none) :
    m.GetOrCreateChannel id w = .ok m.channel_objs.length
      { m with
        trace := m.trace ++ [.lock, .unlock]
        channel_objs := m.channel_objs ++ [⟨id, g, w, m.num_workers_per_node_⟩]
        channels_ := map_insert m.channels_ (w, id) m.channel_objs.length } := by
  simp [GetOrCreateChannel, _GetOrCreateChannel, emit, hg, hf]

theorem GetOrCreateChannel_total (m : ChannelMultiplexer) (id w : Nat) {g : Group}
    (hg : m.group_ = some g) : ∃ ch m1, m.GetOrCreateChannel id w = .ok ch m1 := by
  cases hf : map_find m.channels_ (w, id) with
  | some ch => exact ⟨_, _, GetOrCreateChannel_found m id w hg hf⟩
  | none => exact ⟨_, _, GetOrCreateChannel_new m id w hg hf⟩

theorem GetOrCreateChannel_frame {m m1 : ChannelMultiplexer} {id w : Nat} {ch : ChannelPtr}
    (h : m.GetOrCreateChannel id w = .ok ch m1) :
    m1.trace = m.trace ++ [.lock, .unlock] ∧ m1.dispatcher_ = m.dispatcher_ ∧
      m1.byte_blocks = m.byte_blocks ∧ m1.next_id_ = m.next_id_ ∧
      m1.num_workers_per_node_ = m.num_workers_per_node_ ∧ m1.group_ = m.group_ ∧
      map_find m1.channels_ (w, id) = some ch := by
  cases hg : m.group_ with
  | none =>
    rw [GetOrCreateChannel_unattached m id w hg] at h
    cases h
  | some g =>
    cases hf : map_find m.channels_ (w, id) with
    | some ch0 =>
      rw [GetOrCreateChannel_found m id w hg hf] at h
      cases h
      exact ⟨rfl, rfl, rfl, rfl, rfl, hg, hf⟩
    | none =>
      rw [GetOrCreateChannel_new m id w hg hf] at h
      cases h
      exact ⟨rfl, rfl, rfl, rfl, rfl, hg, map_find_insert_self _ hf⟩

theorem std_copy_spec (src : List Byte) (pre old post : List Byte)
    (hlen : old.length = src.length) :
    std_copy src pre.length (pre ++ old ++ post) = pre ++ src ++ post := by
  induction src generalizing pre old with
  | nil =>
    have : old = [] := List.length_eq_zero.1 hlen
    subst this
    simp [std_copy]
  | cons b bs ih =>
    cases old with
    | nil => simp at hlen
    | cons o os =>
      simp only [std_copy]
      have hset : (pre ++ o :: os ++ post).set pre.length b = (pre ++ [b]) ++ os ++ post := by
        simp [List.set_append]
      rw [hset]
      have := ih (pre ++ [b]) os (by simpa using hlen)
      simp only [List.length_append, List.length_singleton] at this
      rw [this]
      simp

theorem modify_last {α : Type} (f : α → α) (l : List α) (a : α) :
    (l ++ [a]).modify f l.length = l ++ [f a] := by
  induction l with
  | nil => rfl
  | cons x xs ih => simp [ih]

theorem std_copy_fresh (src : List Byte) :
    std_copy src 0 (List.replicate src.length 0) = src := by
  have := std_copy_spec src [] (List.replicate src.length 0) [] (by simp)
  simpa using this

theorem OnStreamBlock_ok (c : Codec) (m : ChannelMultiplexer) (s : Connection)
    (header : StreamBlockHeader) (channel : ChannelPtr) (buffer : Buffer)
    (hsize : header.size = buffer.size) :
    m.OnStreamBlock c s header channel buffer = .ok ()
      { m with
        byte_blocks := m.byte_blocks ++ [buffer.data]
        trace := m.trace ++
          [.OnStreamBlock channel (m.sender_worker_rank header)
              ⟨m.byte_blocks.length, 0, header.size, header.first_item, header.nitems⟩,
            .AsyncRead s c.sizeofHeader .header]
        dispatcher_ := { m.dispatcher_ with
          pending := m.dispatcher_.pending ++ [⟨s, c.sizeofHeader, .header⟩] } } := by
  simp only [OnStreamBlock, hsize, if_true, ByteBlockAllocate, Buffer.size, modify_last,
    std_copy_fresh, emit, AsyncReadStreamBlockHeader, AsyncRead, sender_worker_rank,
    List.append_assoc, List.singleton_append]


theorem ConnectLoop_eq (c : Codec) (g : Group) (n id : Nat) (m : ChannelMultiplexer) :
    ConnectLoop c g n id m =
      { m with
        dispatcher_ := { m.dispatcher_ with
          pending := m.dispatcher_.pending ++ connectReads c g id n }
        trace := m.trace ++ (connectReads c g id n).map readEvent } := by
  induction n generalizing id m with
  | zero => simp [ConnectLoop, connectReads]
  | succ n ih =>
    simp only [ConnectLoop]
    split
    · rename_i h
      rw [ih]
      simp [connectReads, List.range'_succ, h]
    · rename_i h
      rw [ih]
      simp [connectReads, List.range'_succ, h, AsyncReadStreamBlockHeader, AsyncRead, readEvent]

theorem Connect_eq (c : Codec) (m : ChannelMultiplexer) (g : Group) :
    m.Connect c g =
      { m with
        group_ := some g
        dispatcher_ := { m.dispatcher_ with
          pending := m.dispatcher_.pending ++ connectReads c g 0 g.num_connections }
        trace := m.trace ++ (connectReads c g 0 g.num_connections).map readEvent } := by
  simp [Connect, ConnectLoop_eq]

end ChannelMultiplexer

/-! ## Invariants of executions -/

theorem TableInv.nil : TableInv [] [] where
  sorted := List.Pairwise.nil
  nodup := List.nodup_nil
  bound := by simp
  stored := by simp

theorem TableInv.lt_length {t : List (Key × ChannelPtr)} {objs : List Channel}
    (h : TableInv t objs) {key : Key} {ch : ChannelPtr} (hm : (key, ch) ∈ t) :
    ch < objs.length := by
  obtain ⟨obj, hobj, _⟩ := h.bound key ch hm
  exact (List.getElem?_eq_some.1 hobj).1

theorem TableInv.insert {t : List (Key × ChannelPtr)} {objs : List Channel}
    (h : TableInv t objs) (id w : Nat) (g : Group) (k : Nat)
    (hf : map_find t (w, id) = none) :
    TableInv (map_insert t (w, id) objs.length) (objs ++ [⟨id, g, w, k⟩]) where
  sorted := map_insert_sorted _ h.sorted hf
  nodup := by
    have hp := (map_insert_perm objs.length hf).map Prod.snd
    rw [hp.nodup_iff, List.map_cons, List.nodup_cons]
    refine ⟨?_, h.nodup⟩
    intro hmem
    obtain ⟨e, he, hv⟩ := List.mem_map.1 hmem
    have hlt : e.2 < objs.length := @TableInv.lt_length _ _ h e.1 e.2 he
    rw [hv] at hlt
    exact lt_irrefl _ hlt
  bound := by
    intro key ch hm
    rcases List.mem_cons.1 ((map_insert_perm objs.length hf).mem_iff.1 hm) with heq | hm
    · cases heq
      exact ⟨⟨id, g, w, k⟩, by simp, rfl⟩
    · obtain ⟨obj, hobj, hkey⟩ := h.bound key ch hm
      refine ⟨obj, ?_, hkey⟩
      rw [List.getElem?_append_left (h.lt_length hm)]
      exact hobj
  stored := by
    intro ch obj hobj
    by_cases hlt : ch < objs.length
    · rw [List.getElem?_append_left hlt] at hobj
      have hold := h.stored ch obj hobj
      have hne : (obj.local_worker_id, obj.id) ≠ (w, id) := by
        intro heq
        rw [heq, hf] at hold
        cases hold
      rw [map_find_insert_ne _ _ hne]
      exact hold
    · obtain ⟨hlen, _⟩ := List.getElem?_eq_some.1 hobj
      have hlen2 : ch < objs.length + 1 := by simpa using hlen
      have hch : ch = objs.length := Nat.le_antisymm (Nat.lt_succ_iff.1 hlen2) (Nat.not_lt.1 hlt)
      subst hch
      simp at hobj
      subst hobj
      exact map_find_insert_self _ hf

theorem Inv.ctor (k : Nat) : Inv k (ChannelMultiplexer.ctor k) where
  workers := rfl
  counters := by simp [ChannelMultiplexer.ctor]
  connected := fun _ => rfl
  table := TableInv.nil

theorem inv_GetOrCreateChannel {k : Nat} {m m1 : ChannelMultiplexer} {id w : Nat}
    {ch : ChannelPtr} (hinv : Inv k m) (h : m.GetOrCreateChannel id w = .ok ch m1) :
    Inv k m1 ∧ m1.dispatcher_ = m.dispatcher_ ∧ m1.group_ = m.group_ ∧
      m1.num_workers_per_node_ = m.num_workers_per_node_ ∧
      map_find m1.channels_ (w, id) = some ch := by
  cases hg : m.group_ with
  | none =>
    rw [ChannelMultiplexer.GetOrCreateChannel_unattached m id w hg] at h
    cases h
  | some g =>
    cases hf : map_find m.channels_ (w, id) with
    | some ch0 =>
      rw [ChannelMultiplexer.GetOrCreateChannel_found m id w hg hf] at h
      cases h
      exact ⟨⟨hinv.workers, hinv.counters, hinv.connected, hinv.table⟩, rfl, hg, rfl, hf⟩
    | none =>
      rw [ChannelMultiplexer.GetOrCreateChannel_new m id w hg hf] at h
      cases h
      exact ⟨⟨hinv.workers, hinv.counters, hinv.connected,
        hinv.table.insert id w g m.num_workers_per_node_ hf⟩, rfl, hg, rfl,
        map_find_insert_self _ hf⟩

theorem inv_OnStreamBlockHeader {k : Nat} {c : Codec} {m m1 : ChannelMultiplexer}
    {s : Connection} {buffer : Buffer} (hinv : Inv k m) (hg : m.group_ ≠ none)
    (h : m.OnStreamBlockHeader c s buffer = .ok () m1) : Inv k m1 := by
  cases buffer with
  | invalid =>
    simp only [ChannelMultiplexer.OnStreamBlockHeader] at h
    cases h
    exact hinv
  | valid bytes =>
    simp only [ChannelMultiplexer.OnStreamBlockHeader] at h
    split at h
    · cases h
    · rename_i channel m2 hgc
      obtain ⟨hinv2, _, hg2, _, _⟩ := inv_GetOrCreateChannel hinv hgc
      have hg3 : m2.group_ ≠ none := by rw [hg2]; exact hg
      split at h
      · cases h
        exact ⟨hinv2.workers, hinv2.counters, fun hn => absurd hn hg3, hinv2.table⟩
      · cases h
        exact ⟨hinv2.workers, hinv2.counters, fun hn => absurd hn hg3, hinv2.table⟩

theorem inv_OnStreamBlock {k : Nat} {c : Codec} {m m1 : ChannelMultiplexer}
    {s : Connection} {header : StreamBlockHeader} {channel : ChannelPtr} {buffer : Buffer}
    (hinv : Inv k m) (hg : m.group_ ≠ none)
    (h : m.OnStreamBlock c s header channel buffer = .ok () m1) : Inv k m1 := by
  simp only [ChannelMultiplexer.OnStreamBlock] at h
  split at h
  · cases h
    exact ⟨hinv.workers, hinv.counters, fun hn => absurd hn hg, hinv.table⟩
  · cases h

theorem inv_applyOp {k : Nat} {c : Codec} {m m1 : ChannelMultiplexer} {op : Op}
    (hinv : Inv k m) (h : applyOp c m op = some m1) : Inv k m1 := by
  cases op with
  | Connect group =>
    simp only [applyOp, ChannelMultiplexer.Connect_eq, Option.some.injEq] at h
    subst h
    exact ⟨hinv.workers, hinv.counters, fun hn => (by cases hn), hinv.table⟩
  | HasChannel id w =>
    simp only [applyOp, Option.some.injEq] at h
    subst h
    exact hinv
  | AllocateNext w =>
    simp only [applyOp, ChannelMultiplexer.AllocateNext] at h
    split at h
    · simp only [Res.toOption, Option.some.injEq] at h
      subst h
      exact ⟨hinv.workers, by simpa using hinv.counters, hinv.connected, hinv.table⟩
    · cases h
  | GetOrCreateChannel id w =>
    simp only [applyOp] at h
    cases hr : m.GetOrCreateChannel id w with
    | abort f m2 =>
      rw [hr] at h
      cases h
    | ok ch m2 =>
      rw [hr] at h
      cases h
      exact (inv_GetOrCreateChannel hinv hr).1
  | complete i buffer =>
    simp only [applyOp] at h
    cases hp : m.dispatcher_.pending[i]? with
    | none =>
      rw [hp] at h
      cases h
    | some r =>
      rw [hp] at h
      simp only at h
      have hgne : m.group_ ≠ none := by
        intro hn
        rw [hinv.connected hn] at hp
        cases hp
      have hinv0 : Inv k { m with dispatcher_ :=
          { m.dispatcher_ with pending := m.dispatcher_.pending.eraseIdx i } } :=
        ⟨hinv.workers, hinv.counters, fun hn => absurd hn hgne, hinv.table⟩
      generalize hm0 : ({ m with dispatcher_ :=
          { m.dispatcher_ with pending := m.dispatcher_.pending.eraseIdx i } } :
          ChannelMultiplexer) = m0 at h hinv0
      have hg0 : m0.group_ ≠ none := by rw [← hm0]; exact hgne
      cases hcb : r.callback with
      | header =>
        simp only [invoke, hcb] at h
        cases hr : m0.OnStreamBlockHeader c r.conn buffer with
        | abort f m2 =>
          rw [hr] at h
          cases h
        | ok u m2 =>
          rw [hr] at h
          cases h
          exact inv_OnStreamBlockHeader hinv0 hg0 hr
      | block header channel =>
        simp only [invoke, hcb] at h
        cases hr : m0.OnStreamBlock c r.conn header channel buffer with
        | abort f m2 =>
          rw [hr] at h
          cases h
        | ok u m2 =>
          rw [hr] at h
          cases h
          exact inv_OnStreamBlock hinv0 hg0 hr

theorem inv_runOps {k : Nat} {c : Codec} {ops : List Op} {m m1 : ChannelMultiplexer}
    (hinv : Inv k m) (h : runOps c m ops = some m1) : Inv k m1 := by
  induction ops generalizing m with
  | nil =>
    simp only [c7a.runOps, Option.some.injEq] at h
    subst h
    exact hinv
  | cons op ops ih =>
    simp only [c7a.runOps] at h
    cases ha : c7a.applyOp c m op with
    | none =>
      rw [ha] at h
      cases h
    | some m2 =>
      rw [ha] at h
      exact ih (inv_applyOp hinv ha) h

/-! ## The read pipeline -/

open ChannelMultiplexer

theorem connected_of_pending {k : Nat} {m : ChannelMultiplexer} (hinv : Inv k m) {i : Nat}
    {r : AsyncReadRequest} (hp : m.dispatcher_.pending[i]? = some r) :
    ∃ g, m.group_ = some g := by
  cases hg : m.group_ with
  | none =>
    rw [hinv.connected hg] at hp
    cases hp
  | some g => exact ⟨g, rfl⟩

theorem applyOp_complete_last (c : Codec) (m : ChannelMultiplexer) (l : List AsyncReadRequest)
    (r : AsyncReadRequest) (buffer : Buffer) (hp : m.dispatcher_.pending = l ++ [r]) :
    applyOp c m (.complete l.length buffer) =
      (invoke c { m with dispatcher_ := { m.dispatcher_ with pending := l } } r buffer).toOption := by
  simp [applyOp, hp, List.eraseIdx_append_of_length_le]

theorem closeAll_eq (t : List (Key × ChannelPtr)) (m : ChannelMultiplexer) :
    closeAll t m = { m with trace := m.trace ++ t.map (fun e => Event.ChannelClose e.2) } := by
  induction t generalizing m with
  | nil => simp [closeAll]
  | cons e rest ih => simp [closeAll, ih, emit]

theorem dtor_trace {m : ChannelMultiplexer} {g : Group} (hg : m.group_ = some g) :
    m.dtor.trace = m.trace ++
      (m.channels_.map (fun e => Event.ChannelClose e.2) ++ [.Terminate, .GroupClose]) := by
  simp [dtor, hg, closeAll_eq, emit]

theorem connectReads_events (c : Codec) (g : Group) (n : Nat) :
    (connectReads c g 0 n).map readEvent =
      ((List.range n).filter (fun i => decide (i ≠ g.my_connection_id))).map
        (fun i => Event.AsyncRead (g.connection i) c.sizeofHeader .header) := by
  simp [connectReads, readEvent, List.range_eq_range', Function.comp_def]

theorem length_filter_ne_range (n s : Nat) :
    ((List.range n).filter (fun i => decide (i ≠ s))).length =
      n - if s < n then 1 else 0 := by
  have hf : (List.range n).filter (fun i => decide (i ≠ s)) = (List.range n).erase s := by
    rw [(List.nodup_range n).erase_eq_filter s]
    congr 1
    funext i
    by_cases h : i = s <;> simp [bne, h]
  rw [hf, List.length_erase]
  by_cases h : s < n <;> simp [h]

/-! ## How a step changes the table and the counters -/

theorem GetOrCreateChannel_step {m m1 : ChannelMultiplexer} {id w : Nat} {ch : ChannelPtr}
    (h : m.GetOrCreateChannel id w = .ok ch m1) :
    TableStep m m1 id w ∧ m1.next_id_ = m.next_id_ ∧ m1.group_ = m.group_ ∧
      m1.num_workers_per_node_ = m.num_workers_per_node_ := by
  cases hg : m.group_ with
  | none =>
    rw [GetOrCreateChannel_unattached m id w hg] at h
    cases h
  | some g =>
    cases hf : map_find m.channels_ (w, id) with
    | some ch0 =>
      rw [GetOrCreateChannel_found m id w hg hf] at h
      cases h
      exact ⟨Or.inl ⟨by simp [hf], rfl, rfl⟩, rfl, hg, rfl⟩
    | none =>
      rw [GetOrCreateChannel_new m id w hg hf] at h
      cases h
      exact ⟨Or.inr ⟨g, hg, hf, rfl, rfl⟩, rfl, hg, rfl⟩

theorem OnStreamBlockHeader_step {c : Codec} {m m1 : ChannelMultiplexer} {s : Connection}
    {bytes : List Byte} (h : m.OnStreamBlockHeader c s (.valid bytes) = .ok () m1) :
    TableStep m m1 (c.ParseHeader bytes).channel_id (c.ParseHeader bytes).receiver_local_worker_id ∧
      m1.next_id_ = m.next_id_ ∧ m1.group_ = m.group_ ∧
      m1.num_workers_per_node_ = m.num_workers_per_node_ := by
  simp only [OnStreamBlockHeader] at h
  split at h
  · cases h
  · rename_i channel mg hgc
    have hstep := GetOrCreateChannel_step hgc
    split at h <;> cases h <;> exact hstep

theorem OnStreamBlock_step {c : Codec} {m m1 : ChannelMultiplexer} {s : Connection}
    {header : StreamBlockHeader} {channel : ChannelPtr} {buffer : Buffer}
    (h : m.OnStreamBlock c s header channel buffer = .ok () m1) :
    m1.channels_ = m.channels_ ∧ m1.channel_objs = m.channel_objs ∧
      m1.next_id_ = m.next_id_ ∧ m1.group_ = m.group_ ∧
      m1.num_workers_per_node_ = m.num_workers_per_node_ := by
  simp only [OnStreamBlock] at h
  split at h
  · cases h
    exact ⟨rfl, rfl, rfl, rfl, rfl⟩
  · cases h

/-- A step leaves table and constructed channels alone unless it asks for a
key, and then it is a get-or-create of that key. -/
theorem applyOp_table {c : Codec} {m m1 : ChannelMultiplexer} {op : Op}
    (h : applyOp c m op = some m1) :
    match requestedKey c m op with
    | none => m1.channels_ = m.channels_ ∧ m1.channel_objs = m.channel_objs
    | some key => TableStep m m1 key.1 key.2 := by
  cases op with
  | Connect group =>
    simp only [applyOp, Connect_eq, Option.some.injEq] at h
    subst h
    exact ⟨rfl, rfl⟩
  | HasChannel id w =>
    simp only [applyOp, Option.some.injEq] at h
    subst h
    exact ⟨rfl, rfl⟩
  | AllocateNext w =>
    simp only [applyOp, AllocateNext] at h
    split at h
    · simp only [Res.toOption, Option.some.injEq] at h
      subst h
      exact ⟨rfl, rfl⟩
    · cases h
  | GetOrCreateChannel id w =>
    simp only [applyOp] at h
    cases hr : m.GetOrCreateChannel id w with
    | abort f m2 =>
      rw [hr] at h
      cases h
    | ok ch m2 =>
      rw [hr] at h
      cases h
      exact (GetOrCreateChannel_step hr).1
  | complete i buffer =>
    simp only [applyOp] at h
    cases hp : m.dispatcher_.pending[i]? with
    | none =>
      rw [hp] at h
      cases h
    | some r =>
      rw [hp] at h
      simp only at h
      cases hcb : r.callback with
      | header =>
        simp only [invoke, hcb] at h
        cases buffer with
        | invalid =>
          simp only [OnStreamBlockHeader, Res.toOption, Option.some.injEq] at h
          subst h
          exact ⟨rfl, rfl⟩
        | valid bytes =>
          cases hr : OnStreamBlockHeader c { m with dispatcher_ :=
              { m.dispatcher_ with pending := m.dispatcher_.pending.eraseIdx i } }
              r.conn (.valid bytes) with
          | abort f m2 =>
            rw [hr] at h
            cases h
          | ok u m2 =>
            rw [hr] at h
            cases h
            simp only [requestedKey, hp, hcb]
            exact (OnStreamBlockHeader_step hr).1
      | block header channel =>
        simp only [invoke, hcb] at h
        have hkey : requestedKey c m (.complete i buffer) = none := by
          cases buffer <;> simp [requestedKey, hp, hcb]
        rw [hkey]
        cases hr : OnStreamBlock c { m with dispatcher_ :=
            { m.dispatcher_ with pending := m.dispatcher_.pending.eraseIdx i } }
            r.conn header channel buffer with
        | abort f m2 =>
          rw [hr] at h
          cases h
        | ok u m2 =>
          rw [hr] at h
          cases h
          exact ⟨(OnStreamBlock_step hr).1, (OnStreamBlock_step hr).2.1⟩

theorem TableStep.find {m m1 : ChannelMultiplexer} {id w : Nat} (h : TableStep m m1 id w)
    (key : Key) :
    (map_find m1.channels_ key).isSome =
        ((map_find m.channels_ key).isSome || decide (key = (w, id))) ∧
      ∀ ch, map_find m.channels_ key = some ch → map_find m1.channels_ key = some ch := by
  rcases h with ⟨hsome, ht, -⟩ | ⟨g, -, hnone, ht, -⟩
  · rw [ht]
    refine ⟨?_, fun _ hch => hch⟩
    by_cases hk : key = (w, id)
    · subst hk
      simp [hsome]
    · simp [hk]
  · rw [ht]
    by_cases hk : key = (w, id)
    · subst hk
      rw [map_find_insert_self _ hnone]
      refine ⟨by simp, fun ch hch => ?_⟩
      rw [hnone] at hch
      cases hch
    · rw [map_find_insert_ne _ _ hk]
      exact ⟨by simp [hk], fun _ hch => hch⟩

/-- What a step does to the answers of `HasChannel` and to lookups. -/
theorem applyOp_find {c : Codec} {m m1 : ChannelMultiplexer} {op : Op}
    (h : applyOp c m op = some m1) (id w : Nat) :
    (m1.HasChannel id w = true ↔
        m.HasChannel id w = true ∨ requestedKey c m op = some (id, w)) ∧
      ∀ ch, map_find m.channels_ (w, id) = some ch →
        map_find m1.channels_ (w, id) = some ch := by
  have ht := applyOp_table h
  cases hk : requestedKey c m op with
  | none =>
    rw [hk] at ht
    simp only at ht
    simp only [HasChannel, ht.1]
    exact ⟨by simp, fun _ hch => hch⟩
  | some key =>
    rw [hk] at ht
    simp only at ht
    obtain ⟨hsome, hkeep⟩ := ht.find (w, id)
    refine ⟨?_, hkeep⟩
    simp only [HasChannel, hsome, Bool.or_eq_true, decide_eq_true_eq, Option.some.injEq]
    constructor
    · rintro (h1 | h1)
      · exact Or.inl h1
      · right
        apply Prod.ext
        · exact (congrArg Prod.snd h1).symm
        · exact (congrArg Prod.fst h1).symm
    · rintro (h1 | h1)
      · exact Or.inl h1
      · right
        rw [h1]

theorem runOps_cons {c : Codec} {m m2 : ChannelMultiplexer} {op : Op} {ops : List Op}
    (h : runOps c m (op :: ops) = some m2) :
    ∃ m1, applyOp c m op = some m1 ∧ runOps c m1 ops = some m2 := by
  simp only [runOps] at h
  cases ha : applyOp c m op with
  | none =>
    rw [ha] at h
    cases h
  | some m1 =>
    rw [ha] at h
    exact ⟨m1, rfl, h⟩

theorem runOps_find {c : Codec} {ops : List Op} {m m1 : ChannelMultiplexer}
    (h : runOps c m ops = some m1) (id w : Nat) :
    (m1.HasChannel id w = true ↔
        m.HasChannel id w = true ∨ (id, w) ∈ requestedKeys c m ops) ∧
      ∀ ch, map_find m.channels_ (w, id) = some ch →
        map_find m1.channels_ (w, id) = some ch := by
  induction ops generalizing m with
  | nil =>
    simp only [runOps, Option.some.injEq] at h
    subst h
    simp [requestedKeys]
  | cons op ops ih =>
    obtain ⟨m2, ha, hr⟩ := runOps_cons h
    obtain ⟨h1, k1⟩ := applyOp_find ha id w
    obtain ⟨h2, k2⟩ := ih hr
    refine ⟨?_, fun ch hch => k2 ch (k1 ch hch)⟩
    rw [h2, h1]
    simp only [requestedKeys, ha, List.mem_append, Option.mem_toList, Option.mem_def]
    tauto

/-- What a step does to the id counters, the worker count and the group. -/
theorem applyOp_counters {c : Codec} {m m1 : ChannelMultiplexer} {op : Op}
    (h : applyOp c m op = some m1) :
    m1.num_workers_per_node_ = m.num_workers_per_node_ ∧
      (m.group_.isSome = true → m1.group_.isSome = true) ∧
      m1.next_id_ =
        match op with
        | .AllocateNext w => m.next_id_.set w ((m.next_id_.getD w 0 + 1) % SIZE_T_MOD)
        | _ => m.next_id_ := by
  cases op with
  | Connect group =>
    simp only [applyOp, Connect_eq, Option.some.injEq] at h
    subst h
    exact ⟨rfl, fun _ => rfl, rfl⟩
  | HasChannel id w =>
    simp only [applyOp, Option.some.injEq] at h
    subst h
    exact ⟨rfl, fun hg => hg, rfl⟩
  | AllocateNext w =>
    simp only [applyOp, AllocateNext] at h
    split at h
    · simp only [Res.toOption, Option.some.injEq] at h
      subst h
      exact ⟨rfl, fun hg => hg, rfl⟩
    · cases h
  | GetOrCreateChannel id w =>
    simp only [applyOp] at h
    cases hr : m.GetOrCreateChannel id w with
    | abort f m2 =>
      rw [hr] at h
      cases h
    | ok ch m2 =>
      rw [hr] at h
      cases h
      obtain ⟨-, hn, hg, hk⟩ := GetOrCreateChannel_step hr
      exact ⟨hk, fun h0 => by rw [hg]; exact h0, hn⟩
  | complete i buffer =>
    simp only [applyOp] at h
    cases hp : m.dispatcher_.pending[i]? with
    | none =>
      rw [hp] at h
      cases h
    | some r =>
      rw [hp] at h
      simp only at h
      cases hcb : r.callback with
      | header =>
        simp only [invoke, hcb] at h
        cases buffer with
        | invalid =>
          simp only [OnStreamBlockHeader, Res.toOption, Option.some.injEq] at h
          subst h
          exact ⟨rfl, fun hg => hg, rfl⟩
        | valid bytes =>
          cases hr : OnStreamBlockHeader c { m with dispatcher_ :=
              { m.dispatcher_ with pending := m.dispatcher_.pending.eraseIdx i } }
              r.conn (.valid bytes) with
          | abort f m2 =>
            rw [hr] at h
            cases h
          | ok u m2 =>
            rw [hr] at h
            cases h
            obtain ⟨-, hn, hg, hk⟩ := OnStreamBlockHeader_step hr
            exact ⟨hk, fun h0 => by rw [hg]; exact h0, hn⟩
      | block header channel =>
        simp only [invoke, hcb] at h
        cases hr : OnStreamBlock c { m with dispatcher_ :=
            { m.dispatcher_ with pending := m.dispatcher_.pending.eraseIdx i } }
            r.conn header channel buffer with
        | abort f m2 =>
          rw [hr] at h
          cases h
        | ok u m2 =>
          rw [hr] at h
          cases h
          obtain ⟨-, -, hn, hg, hk⟩ := OnStreamBlock_step hr
          exact ⟨hk, fun h0 => by rw [hg]; exact h0, hn⟩

theorem runOps_group {c : Codec} {ops : List Op} {m m1 : ChannelMultiplexer}
    (h : runOps c m ops = some m1) (hg : m.group_.isSome = true) :
    m1.group_.isSome = true := by
  induction ops generalizing m with
  | nil =>
    simp only [runOps, Option.some.injEq] at h
    subst h
    exact hg
  | cons op ops ih =>
    obtain ⟨m2, ha, hr⟩ := runOps_cons h
    exact ih hr ((applyOp_counters ha).2.1 hg)

theorem SIZE_T_MOD_pos : 0 < SIZE_T_MOD := by decide

/-- Along an execution the counter of worker `w` advances, in `size_t`
arithmetic, by the number of `AllocateNext(w)` calls. -/
theorem runOps_next_id {c : Codec} {ops : List Op} {m m1 : ChannelMultiplexer}
    (h : runOps c m ops = some m1) (w : Nat) (hw : w < m.next_id_.length)
    (hlt : m.next_id_.getD w 0 < SIZE_T_MOD) :
    m1.next_id_.length = m.next_id_.length ∧
      m1.next_id_.getD w 0 =
        (m.next_id_.getD w 0 + ops.count (.AllocateNext w)) % SIZE_T_MOD := by
  induction ops generalizing m with
  | nil =>
    simp only [runOps, Option.some.injEq] at h
    subst h
    exact ⟨rfl, by rw [List.count_nil, Nat.add_zero, Nat.mod_eq_of_lt hlt]⟩
  | cons op ops ih =>
    obtain ⟨m2, ha, hr⟩ := runOps_cons h
    have hn := (applyOp_counters ha).2.2
    have hsame : m2.next_id_ = m.next_id_ → op ≠ .AllocateNext w →
        m2.next_id_.length = m.next_id_.length ∧
        m2.next_id_.getD w 0 =
          (m.next_id_.getD w 0 + if op = .AllocateNext w then 1 else 0) % SIZE_T_MOD := by
      intro heq hne
      have hmod : (m.next_id_.getD w 0 + 0) % SIZE_T_MOD = m.next_id_.getD w 0 :=
        Nat.mod_eq_of_lt hlt
      rw [heq, if_neg hne, hmod]
      exact ⟨rfl, rfl⟩
    have hstep : m2.next_id_.length = m.next_id_.length ∧
        m2.next_id_.getD w 0 =
          (m.next_id_.getD w 0 + if op = .AllocateNext w then 1 else 0) % SIZE_T_MOD := by
      cases op with
      | AllocateNext w1 =>
        simp only at hn
        by_cases hww : w1 = w
        · subst hww
          rw [hn, if_pos rfl]
          refine ⟨List.length_set _ _ _, ?_⟩
          rw [List.getD_eq_getElem?_getD, List.getElem?_set_self hw]
          rfl
        · have hne : Op.AllocateNext w1 ≠ Op.AllocateNext w := by
            intro hc
            cases hc
            exact hww rfl
          have hmod : (m.next_id_.getD w 0 + 0) % SIZE_T_MOD = m.next_id_.getD w 0 :=
            Nat.mod_eq_of_lt hlt
          rw [hn, if_neg hne, hmod]
          refine ⟨List.length_set _ _ _, ?_⟩
          rw [List.getD_eq_getElem?_getD, List.getElem?_set_ne hww,
            List.getD_eq_getElem?_getD]
      | Connect group => exact hsame hn (by intro hc; cases hc)
      | HasChannel id w1 => exact hsame hn (by intro hc; cases hc)
      | GetOrCreateChannel id w1 => exact hsame hn (by intro hc; cases hc)
      | complete i buffer => exact hsame hn (by intro hc; cases hc)
    have hlt2 : m2.next_id_.getD w 0 < SIZE_T_MOD := by
      rw [hstep.2]
      exact Nat.mod_lt _ SIZE_T_MOD_pos
    obtain ⟨hl, hv⟩ := ih hr (by rw [hstep.1]; exact hw) hlt2
    refine ⟨hl.trans hstep.1, ?_⟩
    rw [hv, hstep.2, Nat.mod_add_mod, List.count_cons, Nat.add_assoc]
    by_cases hop : op = .AllocateNext w
    · rw [if_pos hop, hop]
      simp only [beq_self_eq_true, if_true]
      rw [Nat.add_comm 1]
    · have hop2 : (op == Op.AllocateNext w) = false := by simpa using hop
      rw [if_neg hop, hop2]
      simp

/-- A run of allocations for one worker never fails. -/
theorem runOps_allocations (c : Codec) (n w : Nat) (m : ChannelMultiplexer)
    (hw : w < m.next_id_.length) :
    ∃ m1, runOps c m (List.replicate n (.AllocateNext w)) = some m1 := by
  induction n generalizing m with
  | zero => exact ⟨m, rfl⟩
  | succ n ih =>
    rw [List.replicate_succ]
    cases hstep : applyOp c m (.AllocateNext w) with
    | none => simp [applyOp, AllocateNext, hw, Res.toOption] at hstep
    | some m2 =>
      have hlen : m2.next_id_.length = m.next_id_.length := by
        have hn := (applyOp_counters hstep).2.2
        simp only at hn
        rw [hn, List.length_set]
      obtain ⟨m1, h1⟩ := ih m2 (by rw [hlen]; exact hw)
      exact ⟨m1, by simp only [runOps, hstep, h1]⟩

theorem countP_eq_one_of_unique {α : Type} (p : α → Bool) (l : List α) (i : Nat) (a : α)
    (hi : l[i]? = some a) (hpa : p a = true)
    (hu : ∀ j b, l[j]? = some b → p b = true → j = i) : l.countP p = 1 := by
  induction l generalizing i with
  | nil => simp at hi
  | cons x xs ih =>
    cases i with
    | zero =>
      simp only [List.getElem?_cons_zero, Option.some.injEq] at hi
      subst hi
      have hz : xs.countP p = 0 := by
        rw [List.countP_eq_zero]
        intro b hb hpb
        obtain ⟨j, hj⟩ := List.getElem?_of_mem hb
        have := hu (j + 1) b (by simpa using hj) hpb
        omega
      simp [List.countP_cons, hpa, hz]
    | succ i1 =>
      simp only [List.getElem?_cons_succ] at hi
      have hx : p x = false := by
        cases hpx : p x with
        | false => rfl
        | true =>
          have := hu 0 x (by simp) hpx
          omega
      have hrec := ih i1 hi (fun j b hj hpb => by
        have := hu (j + 1) b (by simpa using hj) hpb
        omega)
      simp [List.countP_cons, hx, hrec]

/-- In a state of an execution, the channel stored under a key is the one
constructed channel bound to that key. -/
theorem TableInv.count_one {t : List (Key × ChannelPtr)} {objs : List Channel}
    (h : TableInv t objs) {id w : Nat} {ch : ChannelPtr}
    (hf : map_find t (w, id) = some ch) :
    objs.countP (fun o => decide (o.id = id ∧ o.local_worker_id = w)) = 1 := by
  obtain ⟨obj, hobj, hkey⟩ := h.bound (w, id) ch (map_find_some_mem hf)
  have hw : obj.local_worker_id = w := congrArg Prod.fst hkey
  have hid : obj.id = id := congrArg Prod.snd hkey
  refine countP_eq_one_of_unique _ objs ch obj hobj (by simp [hw, hid]) ?_
  intro j b hj hpb
  simp only [decide_eq_true_eq] at hpb
  have hs := h.stored j b hj
  rw [hpb.1, hpb.2, hf] at hs
  cases hs
  rfl

/-! ## The group, the pending reads and the handlers in full -/

/-- Only `Connect` changes the group. -/
theorem applyOp_group {c : Codec} {m m1 : ChannelMultiplexer} {op : Op}
    (h : applyOp c m op = some m1) (hop : op.isConnect = false) : m1.group_ = m.group_ := by
  cases op with
  | Connect group => simp [Op.isConnect] at hop
  | HasChannel id w =>
    simp only [applyOp, Option.some.injEq] at h
    subst h
    rfl
  | AllocateNext w =>
    simp only [applyOp, AllocateNext] at h
    split at h
    · simp only [Res.toOption, Option.some.injEq] at h
      subst h
      rfl
    · cases h
  | GetOrCreateChannel id w =>
    simp only [applyOp] at h
    cases hr : m.GetOrCreateChannel id w with
    | abort f m2 =>
      rw [hr] at h
      cases h
    | ok ch m2 =>
      rw [hr] at h
      cases h
      exact (GetOrCreateChannel_step hr).2.2.1
  | complete i buffer =>
    simp only [applyOp] at h
    cases hp : m.dispatcher_.pending[i]? with
    | none =>
      rw [hp] at h
      cases h
    | some r =>
      rw [hp] at h
      simp only at h
      cases hcb : r.callback with
      | header =>
        simp only [invoke, hcb] at h
        cases buffer with
        | invalid =>
          simp only [OnStreamBlockHeader, Res.toOption, Option.some.injEq] at h
          subst h
          rfl
        | valid bytes =>
          cases hr : OnStreamBlockHeader c { m with dispatcher_ :=
              { m.dispatcher_ with pending := m.dispatcher_.pending.eraseIdx i } }
              r.conn (.valid bytes) with
          | abort f m2 =>
            rw [hr] at h
            cases h
          | ok u m2 =>
            rw [hr] at h
            cases h
            exact (OnStreamBlockHeader_step hr).2.2.1
      | block header channel =>
        simp only [invoke, hcb] at h
        cases hr : OnStreamBlock c { m with dispatcher_ :=
            { m.dispatcher_ with pending := m.dispatcher_.pending.eraseIdx i } }
            r.conn header channel buffer with
        | abort f m2 =>
          rw [hr] at h
          cases h
        | ok u m2 =>
          rw [hr] at h
          cases h
          exact (OnStreamBlock_step hr).2.2.2.1

theorem runOps_unattached {c : Codec} {ops : List Op} {m m1 : ChannelMultiplexer}
    (h : runOps c m ops = some m1) (hnc : ∀ op ∈ ops, op.isConnect = false)
    (hg : m.group_ = none) : m1.group_ = none := by
  induction ops generalizing m with
  | nil =>
    simp only [runOps, Option.some.injEq] at h
    subst h
    exact hg
  | cons op ops ih =>
    obtain ⟨m2, ha, hr⟩ := runOps_cons h
    refine ih hr (fun o ho => hnc o (List.mem_cons_of_mem _ ho)) ?_
    rw [applyOp_group ha (hnc op (List.mem_cons_self _ _))]
    exact hg

theorem dtor_channels (m : ChannelMultiplexer) :
    m.dtor.channels_ = m.channels_ ∧ m.dtor.channel_objs = m.channel_objs := by
  cases hg : m.group_ <;> simp [dtor, hg, closeAll_eq, emit]

/-- No overflow and a sub-worker id below `k`: the flattened rank determines
the pair it was built from. -/
theorem flat_rank_injective {k r1 l1 r2 l2 : Nat} (hl1 : l1 < k) (hl2 : l2 < k)
    (h : r1 * k + l1 = r2 * k + l2) : r1 = r2 ∧ l1 = l2 := by
  have hk : 0 < k := by omega
  have hd1 : (r1 * k + l1) / k = r1 := by
    rw [Nat.add_comm, Nat.add_mul_div_right _ _ hk, Nat.div_eq_of_lt hl1, Nat.zero_add]
  have hd2 : (r2 * k + l2) / k = r2 := by
    rw [Nat.add_comm, Nat.add_mul_div_right _ _ hk, Nat.div_eq_of_lt hl2, Nat.zero_add]
  have hr : r1 = r2 := by rw [← hd1, ← hd2, h]
  subst hr
  exact ⟨rfl, by omega⟩

/-- The header handler on a valid buffer, with a group attached: what it
returns, what it adds to the trace and which read it hands to the dispatcher. -/
theorem OnStreamBlockHeader_valid (c : Codec) (m : ChannelMultiplexer) (s : Connection)
    (hb : List Byte) {g : Group} (hg : m.group_ = some g) :
    ∃ ch m1, m.OnStreamBlockHeader c s (.valid hb) = .ok () m1 ∧
      map_find m1.channels_
        ((c.ParseHeader hb).receiver_local_worker_id, (c.ParseHeader hb).channel_id) = some ch ∧
      m1.trace = m.trace ++ ([.lock, .unlock] ++
        if c.IsStreamEnd (c.ParseHeader hb) then
          [.OnCloseStream ch (m.sender_worker_rank (c.ParseHeader hb)),
            .AsyncRead s c.sizeofHeader .header]
        else [.AsyncRead s (c.ParseHeader hb).size (.block (c.ParseHeader hb) ch)]) ∧
      m1.dispatcher_.pending = m.dispatcher_.pending ++
        [if c.IsStreamEnd (c.ParseHeader hb) then ⟨s, c.sizeofHeader, .header⟩
          else ⟨s, (c.ParseHeader hb).size, .block (c.ParseHeader hb) ch⟩] := by
  obtain ⟨ch, mg, hgc⟩ := GetOrCreateChannel_total m
    (c.ParseHeader hb).channel_id (c.ParseHeader hb).receiver_local_worker_id hg
  obtain ⟨htr, hdisp, -, -, hk, -, hfind⟩ := GetOrCreateChannel_frame hgc
  cases hend : c.IsStreamEnd (c.ParseHeader hb) with
  | true =>
    refine ⟨ch, AsyncReadStreamBlockHeader c
      (mg.emit (.OnCloseStream ch (mg.sender_worker_rank (c.ParseHeader hb)))) s, ?_, hfind, ?_, ?_⟩
    · simp only [OnStreamBlockHeader, hgc, hend, if_true]
    · simp [AsyncReadStreamBlockHeader, AsyncRead, emit, htr, sender_worker_rank, hk]
    · simp [AsyncReadStreamBlockHeader, AsyncRead, emit, hdisp]
  | false =>
    refine ⟨ch, mg.AsyncRead s (c.ParseHeader hb).size (.block (c.ParseHeader hb) ch), ?_,
      hfind, ?_, ?_⟩
    · simp [OnStreamBlockHeader, hgc, hend]
    · simp [AsyncRead, htr]
    · simp [AsyncRead, hdisp]

/-- An element that occurs in neither part around it splits a list in one way
only. -/
theorem split_unique {α : Type} {a : α} {l r pre post : List α} (hl : a ∉ l) (hr : a ∉ r)
    (h : l ++ a :: r = pre ++ a :: post) : pre = l ∧ post = r := by
  rcases List.append_eq_append_iff.1 h with ⟨x, hx1, hx2⟩ | ⟨x, hx1, hx2⟩
  · cases x with
    | nil =>
      simp only [List.nil_append, List.cons.injEq, true_and] at hx2
      exact ⟨by simpa using hx1, hx2.symm⟩
    | cons y ys =>
      simp only [List.cons_append, List.cons.injEq] at hx2
      exact absurd (by rw [hx2.2]; simp) hr
  · cases x with
    | nil =>
      simp only [List.nil_append, List.cons.injEq, true_and] at hx2
      exact ⟨by simpa using hx1.symm, hx2⟩
    | cons y ys =>
      simp only [List.cons_append, List.cons.injEq] at hx2
      exact absurd (by rw [hx1, ← hx2.1]; simp) hl

/-! ## The reads the dispatcher owes -/

theorem OnStreamBlockHeader_pending {c : Codec} {m m1 : ChannelMultiplexer} {s : Connection}
    {bytes : List Byte} (h : m.OnStreamBlockHeader c s (.valid bytes) = .ok () m1) :
    ∃ r1, m1.dispatcher_.pending = m.dispatcher_.pending ++ [r1] ∧ r1.conn = s ∧
      ∀ header channel, r1.callback = .block header channel → r1.nbytes = header.size := by
  simp only [OnStreamBlockHeader] at h
  split at h
  · cases h
  · rename_i channel mg hgc
    have hdisp := (GetOrCreateChannel_frame hgc).2.1
    split at h
    · cases h
      refine ⟨⟨s, c.sizeofHeader, .header⟩, ?_, rfl, ?_⟩
      · simp [AsyncReadStreamBlockHeader, AsyncRead, emit, hdisp]
      · intro header channel hcb
        cases hcb
    · cases h
      refine ⟨⟨s, (c.ParseHeader bytes).size, .block (c.ParseHeader bytes) channel⟩, ?_, rfl, ?_⟩
      · simp [AsyncRead, hdisp]
      · intro header channel hcb
        cases hcb
        rfl

theorem OnStreamBlock_pending {c : Codec} {m m1 : ChannelMultiplexer} {s : Connection}
    {header : StreamBlockHeader} {channel : ChannelPtr} {buffer : Buffer}
    (h : m.OnStreamBlock c s header channel buffer = .ok () m1) :
    m1.dispatcher_.pending = m.dispatcher_.pending ++ [⟨s, c.sizeofHeader, .header⟩] := by
  simp only [OnStreamBlock] at h
  split at h
  · cases h
    rfl
  · cases h

/-- What a step does to the reads the dispatcher owes. -/
theorem applyOp_pending {c : Codec} {m m1 : ChannelMultiplexer} {op : Op}
    (h : applyOp c m op = some m1) :
    match op with
    | .Connect g =>
      m1.dispatcher_.pending = m.dispatcher_.pending ++ connectReads c g 0 g.num_connections
    | .complete i _ =>
      ∃ r, m.dispatcher_.pending[i]? = some r ∧
        (m1.dispatcher_.pending = m.dispatcher_.pending.eraseIdx i ∨
          ∃ r1, m1.dispatcher_.pending = m.dispatcher_.pending.eraseIdx i ++ [r1] ∧
            r1.conn = r.conn ∧
            ∀ header channel, r1.callback = .block header channel → r1.nbytes = header.size)
    | _ => m1.dispatcher_.pending = m.dispatcher_.pending := by
  cases op with
  | Connect group =>
    simp only [applyOp, Connect_eq, Option.some.injEq] at h
    subst h
    rfl
  | HasChannel id w =>
    simp only [applyOp, Option.some.injEq] at h
    subst h
    rfl
  | AllocateNext w =>
    simp only [applyOp, AllocateNext] at h
    split at h
    · simp only [Res.toOption, Option.some.injEq] at h
      subst h
      rfl
    · cases h
  | GetOrCreateChannel id w =>
    simp only [applyOp] at h
    cases hr : m.GetOrCreateChannel id w with
    | abort f m2 =>
      rw [hr] at h
      cases h
    | ok ch m2 =>
      rw [hr] at h
      cases h
      simp only
      rw [(GetOrCreateChannel_frame hr).2.1]
  | complete i buffer =>
    simp only [applyOp] at h
    cases hp : m.dispatcher_.pending[i]? with
    | none =>
      rw [hp] at h
      cases h
    | some r =>
      rw [hp] at h
      simp only at h
      refine ⟨r, hp, ?_⟩
      cases hcb : r.callback with
      | header =>
        simp only [invoke, hcb] at h
        cases buffer with
        | invalid =>
          simp only [OnStreamBlockHeader, Res.toOption, Option.some.injEq] at h
          subst h
          exact Or.inl rfl
        | valid bytes =>
          cases hr : OnStreamBlockHeader c { m with dispatcher_ :=
              { m.dispatcher_ with pending := m.dispatcher_.pending.eraseIdx i } }
              r.conn (.valid bytes) with
          | abort f m2 =>
            rw [hr] at h
            cases h
          | ok u m2 =>
            rw [hr] at h
            cases h
            exact Or.inr (OnStreamBlockHeader_pending hr)
      | block header channel =>
        simp only [invoke, hcb] at h
        cases hr : OnStreamBlock c { m with dispatcher_ :=
            { m.dispatcher_ with pending := m.dispatcher_.pending.eraseIdx i } }
            r.conn header channel buffer with
        | abort f m2 =>
          rw [hr] at h
          cases h
        | ok u m2 =>
          rw [hr] at h
          cases h
          refine Or.inr ⟨⟨r.conn, c.sizeofHeader, .header⟩, OnStreamBlock_pending hr, rfl, ?_⟩
          intro header channel hcb2
          cases hcb2

theorem connectReads_header (c : Codec) (g : Group) (id n : Nat) :
    ∀ r ∈ connectReads c g id n, r.callback = .header := by
  intro r hr
  simp only [connectReads, List.mem_map] at hr
  obtain ⟨i, -, rfl⟩ := hr
  rfl

theorem payloadReadsExact_ctor (k : Nat) : PayloadReadsExact (ctor k) := by
  intro r hr
  simp [ctor] at hr

theorem payloadReadsExact_applyOp {c : Codec} {m m1 : ChannelMultiplexer} {op : Op}
    (hinv : PayloadReadsExact m) (h : applyOp c m op = some m1) : PayloadReadsExact m1 := by
  have hp := applyOp_pending h
  intro r hr header channel hcb
  cases op with
  | Connect g =>
    simp only at hp
    rw [hp] at hr
    rcases List.mem_append.1 hr with hr | hr
    · exact hinv r hr header channel hcb
    · rw [connectReads_header c g 0 _ r hr] at hcb
      cases hcb
  | HasChannel id w =>
    simp only at hp
    rw [hp] at hr
    exact hinv r hr header channel hcb
  | AllocateNext w =>
    simp only at hp
    rw [hp] at hr
    exact hinv r hr header channel hcb
  | GetOrCreateChannel id w =>
    simp only at hp
    rw [hp] at hr
    exact hinv r hr header channel hcb
  | complete i buffer =>
    simp only at hp
    obtain ⟨r0, -, hcase⟩ := hp
    rcases hcase with he | ⟨r1, he, -, hexact⟩
    · rw [he] at hr
      exact hinv r ((List.eraseIdx_sublist _ _).subset hr) header channel hcb
    · rw [he] at hr
      rcases List.mem_append.1 hr with hr | hr
      · exact hinv r ((List.eraseIdx_sublist _ _).subset hr) header channel hcb
      · rw [List.mem_singleton] at hr
        subst hr
        exact hexact header channel hcb

theorem payloadReadsExact_runOps {c : Codec} {ops : List Op} {m m1 : ChannelMultiplexer}
    (hinv : PayloadReadsExact m) (h : runOps c m ops = some m1) : PayloadReadsExact m1 := by
  induction ops generalizing m with
  | nil =>
    simp only [runOps, Option.some.injEq] at h
    subst h
    exact hinv
  | cons op ops ih =>
    obtain ⟨m2, ha, hr⟩ := runOps_cons h
    exact ih (payloadReadsExact_applyOp hinv ha) hr

theorem nodup_map_eraseIdx {α β : Type} (f : α → β) (l : List α) (i : Nat)
    (hl : (l.map f).Nodup) : ((l.eraseIdx i).map f).Nodup :=
  hl.sublist ((List.eraseIdx_sublist l i).map f)

theorem nodup_map_eraseIdx_append {α β : Type} (f : α → β) (l : List α) (i : Nat) (r b : α)
    (hl : (l.map f).Nodup) (hi : l[i]? = some r) (hb : f b = f r) :
    ((l.eraseIdx i ++ [b]).map f).Nodup := by
  induction l generalizing i with
  | nil => simp at hi
  | cons x xs ih =>
    rw [List.map_cons, List.nodup_cons] at hl
    cases i with
    | zero =>
      simp only [List.getElem?_cons_zero, Option.some.injEq] at hi
      subst hi
      simp only [List.eraseIdx_cons_zero, List.map_append, List.map_cons, List.map_nil]
      rw [List.nodup_append]
      refine ⟨hl.2, by simp, ?_⟩
      intro y hy hy2
      rw [List.mem_singleton] at hy2
      subst hy2
      rw [hb] at hy
      exact hl.1 hy
    | succ j =>
      simp only [List.getElem?_cons_succ] at hi
      simp only [List.eraseIdx_cons_succ, List.cons_append, List.map_cons, List.nodup_cons]
      refine ⟨?_, ih j hl.2 hi⟩
      rw [List.map_append, List.mem_append]
      rintro (hmem | hmem)
      · exact hl.1 (((List.eraseIdx_sublist xs j).map f).subset hmem)
      · simp only [List.map_cons, List.map_nil, List.mem_singleton] at hmem
        rw [hmem, hb] at hl
        exact hl.1 (List.mem_map.2 ⟨r, List.getElem?_mem hi, rfl⟩)

theorem connectReads_nodup (c : Codec) (g : Group) (n : Nat) :
    ((connectReads c g 0 n).map AsyncReadRequest.conn).Nodup := by
  have hinj : Function.Injective (fun i => g.connection i) := by
    intro a b hab
    simpa [Group.connection] using hab
  have hmap : (connectReads c g 0 n).map AsyncReadRequest.conn =
      ((List.range' 0 n).filter (fun i => decide (i ≠ g.my_connection_id))).map
        (fun i => g.connection i) := by
    simp [connectReads, Function.comp_def]
  rw [hmap]
  exact ((List.nodup_range' 0 n).filter _).map hinj

theorem oneRead_applyOp {c : Codec} {m m1 : ChannelMultiplexer} {op : Op}
    (hinv : OneReadPerConnection m) (hop : op.isConnect = false)
    (h : applyOp c m op = some m1) : OneReadPerConnection m1 := by
  have hp := applyOp_pending h
  unfold OneReadPerConnection at *
  cases op with
  | Connect g => simp [Op.isConnect] at hop
  | HasChannel id w =>
    simp only at hp
    rw [hp]
    exact hinv
  | AllocateNext w =>
    simp only at hp
    rw [hp]
    exact hinv
  | GetOrCreateChannel id w =>
    simp only at hp
    rw [hp]
    exact hinv
  | complete i buffer =>
    simp only at hp
    obtain ⟨r0, hr0, hcase⟩ := hp
    rcases hcase with he | ⟨r1, he, hconn, -⟩
    · rw [he]
      exact nodup_map_eraseIdx _ _ i hinv
    · rw [he]
      exact nodup_map_eraseIdx_append _ _ i r0 r1 hinv hr0 hconn

theorem oneRead_runOps_rest {c : Codec} {ops : List Op} {m m1 : ChannelMultiplexer}
    (hinv : OneReadPerConnection m) (hnc : ∀ op ∈ ops, op.isConnect = false)
    (h : runOps c m ops = some m1) : OneReadPerConnection m1 := by
  induction ops generalizing m with
  | nil =>
    simp only [runOps, Option.some.injEq] at h
    subst h
    exact hinv
  | cons op ops ih =>
    obtain ⟨m2, ha, hr⟩ := runOps_cons h
    exact ih (oneRead_applyOp hinv (hnc op (List.mem_cons_self _ _)) ha)
      (fun o ho => hnc o (List.mem_cons_of_mem _ ho)) hr

/-- With at most one call of `Connect`, started before any read is owed, no
connection ever has two reads outstanding. -/
theorem oneRead_runOps {k : Nat} {c : Codec} {ops : List Op} {m m1 : ChannelMultiplexer}
    (hinv : Inv k m) (hg : m.group_ = none) (honce : ops.countP Op.isConnect ≤ 1)
    (h : runOps c m ops = some m1) : OneReadPerConnection m1 := by
  induction ops generalizing m with
  | nil =>
    simp only [runOps, Option.some.injEq] at h
    subst h
    simp [OneReadPerConnection, hinv.connected hg]
  | cons op ops ih =>
    obtain ⟨m2, ha, hr⟩ := runOps_cons h
    cases hop : op.isConnect with
    | false =>
      have hg2 : m2.group_ = none := by rw [applyOp_group ha hop]; exact hg
      have honce2 : ops.countP Op.isConnect ≤ 1 := by
        simpa [List.countP_cons, hop] using honce
      exact ih (inv_applyOp hinv ha) hg2 honce2 hr
    | true =>
      have hzero : ops.countP Op.isConnect = 0 := by
        have : ops.countP Op.isConnect + 1 ≤ 1 := by
          simpa [List.countP_cons, hop] using honce
        omega
      have hnc : ∀ o ∈ ops, o.isConnect = false := by
        intro o ho
        have := List.countP_eq_zero.1 hzero o ho
        simpa using this
      refine oneRead_runOps_rest ?_ hnc hr
      cases op with
      | Connect g =>
        have hp := applyOp_pending ha
        simp only at hp
        unfold OneReadPerConnection
        rw [hp, hinv.connected hg, List.nil_append]
        exact connectReads_nodup c g _
      | HasChannel id w => simp [Op.isConnect] at hop
      | AllocateNext w => simp [Op.isConnect] at hop
      | GetOrCreateChannel id w => simp [Op.isConnect] at hop
      | complete i buffer => simp [Op.isConnect] at hop

theorem outstanding_le_one {m : ChannelMultiplexer} (h : OneReadPerConnection m)
    (s : Connection) : (outstanding m s).length ≤ 1 := by
  unfold OneReadPerConnection at h
  have hc := List.nodup_iff_count_le_one.1 h s
  have heq : (outstanding m s).length =
      (m.dispatcher_.pending.map AsyncReadRequest.conn).count s := by
    unfold outstanding
    generalize m.dispatcher_.pending = l
    induction l with
    | nil => rfl
    | cons x xs ih =>
      by_cases hx : x.conn = s
      · simp [List.filter_cons, hx, ih]
      · have hx2 : ¬ (x.conn == s) = true := by simpa using hx
        simp [List.filter_cons, hx, ih, List.count_cons, hx2]
  omega

/-! ## Claims -/

/-- C1. Routing of a data frame.  In any state reached from a multiplexer built
for `k` workers per node, let the dispatcher complete a pending header read on
connection `s` with a valid buffer that parses to a header `h` which is not an
end-of-stream marker, and then complete the payload read this issues with a
buffer of `h.size` bytes.  Both completions return; between them the channel
callbacks are exactly one `OnStreamBlock`, on the channel stored under the key
`(h.receiver_local_worker_id, h.channel_id)`, with sender id
`h.sender_rank * k + h.sender_local_worker_id` computed in `size_t`
arithmetic, which is that very number whenever it fits in 64 bits; no
`OnCloseStream` is invoked. -/
theorem data_frame_routing (c : Codec) (k : Nat) (ops : List Op) (m : ChannelMultiplexer)
    (i : Nat) (s : Connection) (hb pb : List Byte) (h : StreamBlockHeader)
    (hrun : runOps c (ctor k) ops = some m)
    (hpend : m.dispatcher_.pending[i]? = some ⟨s, c.sizeofHeader, .header⟩)
    (hparse : c.ParseHeader hb = h)
    (hend : c.IsStreamEnd h = false)
    (hsize : pb.length = h.size) :
    ∃ m1 m2 ch,
      applyOp c m (.complete i (.valid hb)) = some m1 ∧
      m1.dispatcher_.pending = m.dispatcher_.pending.eraseIdx i ++ [⟨s, h.size, .block h ch⟩] ∧
      applyOp c m1 (.complete (m.dispatcher_.pending.eraseIdx i).length (.valid pb)) = some m2 ∧
      map_find m2.channels_ (h.receiver_local_worker_id, h.channel_id) = some ch ∧
      (emitted m m2).filter Event.isChannelCallback =
        [.OnStreamBlock ch ((h.sender_rank * k + h.sender_local_worker_id) % SIZE_T_MOD)
          ⟨m.byte_blocks.length, 0, h.size, h.first_item, h.nitems⟩] ∧
      (h.sender_rank * k + h.sender_local_worker_id < SIZE_T_MOD →
        (h.sender_rank * k + h.sender_local_worker_id) % SIZE_T_MOD =
          h.sender_rank * k + h.sender_local_worker_id) := by
  have hinv := inv_runOps (Inv.ctor k) hrun
  obtain ⟨g, hg⟩ := connected_of_pending hinv hpend
  obtain ⟨ch, mg, hgc⟩ := GetOrCreateChannel_total
    { m with dispatcher_ := { m.dispatcher_ with pending := m.dispatcher_.pending.eraseIdx i } }
    h.channel_id h.receiver_local_worker_id hg
  obtain ⟨htr, hdisp, hbb, -, hk, -, hfind⟩ := GetOrCreateChannel_frame hgc
  have h1 : applyOp c m (.complete i (.valid hb)) =
      some (mg.AsyncRead s h.size (.block h ch)) := by
    simp only [applyOp, hpend, invoke, OnStreamBlockHeader, hparse, hgc, hend, Res.toOption]
    rfl
  dsimp only at htr hdisp hbb hk
  have h2 : ∃ m2, applyOp c (mg.AsyncRead s h.size (.block h ch))
      (.complete (m.dispatcher_.pending.eraseIdx i).length (.valid pb)) = some m2 ∧
      m2.channels_ = mg.channels_ ∧
      m2.trace = m.trace ++ [.lock, .unlock, .AsyncRead s h.size (.block h ch),
        .OnStreamBlock ch ((h.sender_rank * k + h.sender_local_worker_id) % SIZE_T_MOD)
          ⟨m.byte_blocks.length, 0, h.size, h.first_item, h.nitems⟩,
        .AsyncRead s c.sizeofHeader .header] := by
    rw [applyOp_complete_last c _ (m.dispatcher_.pending.eraseIdx i) ⟨s, h.size, .block h ch⟩
      (.valid pb) (by simp [AsyncRead, hdisp])]
    simp only [invoke]
    rw [OnStreamBlock_ok _ _ _ _ _ _ (by simp [Buffer.size, Buffer.data, hsize])]
    refine ⟨_, rfl, rfl, ?_⟩
    simp [AsyncRead, htr, hbb, sender_worker_rank, hk, hinv.workers]
  obtain ⟨m2, h2, hch, htr2⟩ := h2
  refine ⟨_, m2, ch, h1, by simp [AsyncRead, hdisp], h2, by rw [hch]; exact hfind, ?_,
    fun hlt => Nat.mod_eq_of_lt hlt⟩
  simp [emitted, htr2, Event.isChannelCallback]


/-- C1, evaluated on the frame `channel_id = 5`, `receiver_local_worker_id = 2`,
`sender_rank = 3`, `sender_local_worker_id = 1` with four workers per node: the
block goes to the channel under key `(2, 5)` with sender id `13`. -/
theorem data_frame_routing_witness :
    ∃ m1 m2 ch,
      applyOp sampleCodec ((ctor 4).Connect sampleCodec ⟨2, 0⟩)
        (.complete 0 (.valid [5, 3, 0, 1, 3, 2, 1])) = some m1 ∧
      m1.dispatcher_.pending = [⟨⟨1⟩, 3, .block ⟨5, 3, 0, 1, 3, 2, 1⟩ ch⟩] ∧
      applyOp sampleCodec m1 (.complete 0 (.valid [10, 20, 30])) = some m2 ∧
      map_find m2.channels_ (2, 5) = some ch ∧
      (emitted ((ctor 4).Connect sampleCodec ⟨2, 0⟩) m2).filter Event.isChannelCallback =
        [.OnStreamBlock ch 13 ⟨0, 0, 3, 0, 1⟩] ∧
      (3 * 4 + 1 < SIZE_T_MOD → (3 * 4 + 1) % SIZE_T_MOD = 3 * 4 + 1) :=
  data_frame_routing sampleCodec 4 [.Connect ⟨2, 0⟩] _ 0 ⟨1⟩ [5, 3, 0, 1, 3, 2, 1] [10, 20, 30] _
    rfl rfl rfl rfl rfl

/-- C2. End-of-stream frame.  In any state reached from a multiplexer built for
`k` workers per node, completing a pending header read on connection `s` with
a valid buffer that parses to an end-of-stream header `h` runs
`OnStreamBlockHeader` to its return; the channel callbacks it makes are exactly
one `OnCloseStream`, with `h.sender_rank * k + h.sender_local_worker_id`
computed in `size_t` arithmetic (that very number whenever it fits in 64 bits),
on the channel stored under `(h.receiver_local_worker_id, h.channel_id)`; the
only read it issues is a
header read of `sizeof(StreamBlockHeader)` bytes on `s`, so no `OnStreamBlock`
and no payload read. -/
theorem stream_end_frame (c : Codec) (k : Nat) (ops : List Op) (m : ChannelMultiplexer)
    (i : Nat) (s : Connection) (hb : List Byte) (h : StreamBlockHeader)
    (hrun : runOps c (ctor k) ops = some m)
    (hpend : m.dispatcher_.pending[i]? = some ⟨s, c.sizeofHeader, .header⟩)
    (hparse : c.ParseHeader hb = h)
    (hend : c.IsStreamEnd h = true) :
    ∃ m1 ch,
      OnStreamBlockHeader c
        { m with dispatcher_ :=
          { m.dispatcher_ with pending := m.dispatcher_.pending.eraseIdx i } }
        s (.valid hb) = .ok () m1 ∧
      applyOp c m (.complete i (.valid hb)) = some m1 ∧
      map_find m1.channels_ (h.receiver_local_worker_id, h.channel_id) = some ch ∧
      (emitted m m1).filter Event.isChannelCallback =
        [.OnCloseStream ch ((h.sender_rank * k + h.sender_local_worker_id) % SIZE_T_MOD)] ∧
      (emitted m m1).filter Event.isRead = [.AsyncRead s c.sizeofHeader .header] ∧
      m1.dispatcher_.pending =
        m.dispatcher_.pending.eraseIdx i ++ [⟨s, c.sizeofHeader, .header⟩] ∧
      (h.sender_rank * k + h.sender_local_worker_id < SIZE_T_MOD →
        (h.sender_rank * k + h.sender_local_worker_id) % SIZE_T_MOD =
          h.sender_rank * k + h.sender_local_worker_id) := by
  have hinv := inv_runOps (Inv.ctor k) hrun
  obtain ⟨g, hg⟩ := connected_of_pending hinv hpend
  obtain ⟨ch, mg, hgc⟩ := GetOrCreateChannel_total
    { m with dispatcher_ := { m.dispatcher_ with pending := m.dispatcher_.pending.eraseIdx i } }
    h.channel_id h.receiver_local_worker_id hg
  obtain ⟨htr, hdisp, -, -, hk, -, hfind⟩ := GetOrCreateChannel_frame hgc
  dsimp only at htr hdisp hk
  have h0 : OnStreamBlockHeader c
      { m with dispatcher_ :=
        { m.dispatcher_ with pending := m.dispatcher_.pending.eraseIdx i } }
      s (.valid hb) = .ok ()
        (AsyncReadStreamBlockHeader c
          (mg.emit (.OnCloseStream ch (mg.sender_worker_rank h))) s) := by
    simp only [OnStreamBlockHeader, hparse, hgc, hend, if_true]
  refine ⟨_, ch, h0, ?_, hfind, ?_, ?_, ?_, fun hlt => Nat.mod_eq_of_lt hlt⟩
  · simp only [applyOp, hpend, invoke, h0, Res.toOption]
  · simp [emitted, AsyncReadStreamBlockHeader, AsyncRead, emit, htr, sender_worker_rank, hk,
      hinv.workers, Event.isChannelCallback]
  · simp [emitted, AsyncReadStreamBlockHeader, AsyncRead, emit, htr, Event.isRead]
  · simp [AsyncReadStreamBlockHeader, AsyncRead, emit, hdisp]

/-- C2, evaluated on an end-of-stream header for channel 5 of worker 2 from
rank 3, sub-worker 1, with four workers per node: one `OnCloseStream(13)`. -/
theorem stream_end_frame_witness :
    ∃ m1 ch,
      OnStreamBlockHeader sampleCodec
        { (ctor 4).Connect sampleCodec ⟨2, 0⟩ with dispatcher_ := ⟨[], false⟩ }
        ⟨1⟩ (.valid [5, 0, 0, 0, 3, 2, 1]) = .ok () m1 ∧
      applyOp sampleCodec ((ctor 4).Connect sampleCodec ⟨2, 0⟩)
        (.complete 0 (.valid [5, 0, 0, 0, 3, 2, 1])) = some m1 ∧
      map_find m1.channels_ (2, 5) = some ch ∧
      (emitted ((ctor 4).Connect sampleCodec ⟨2, 0⟩) m1).filter Event.isChannelCallback =
        [.OnCloseStream ch 13] ∧
      (emitted ((ctor 4).Connect sampleCodec ⟨2, 0⟩) m1).filter Event.isRead =
        [.AsyncRead ⟨1⟩ 7 .header] ∧
      m1.dispatcher_.pending = [⟨⟨1⟩, 7, .header⟩] ∧
      (3 * 4 + 1 < SIZE_T_MOD → (3 * 4 + 1) % SIZE_T_MOD = 3 * 4 + 1) :=
  stream_end_frame sampleCodec 4 [.Connect ⟨2, 0⟩] _ 0 ⟨1⟩ [5, 0, 0, 0, 3, 2, 1] _
    rfl rfl rfl rfl

/-- C6. Payload integrity.  When the delivered buffer has `header.size` bytes,
`OnStreamBlock` returns and hands the channel one `Block` whose byte block is
newly allocated (its position is past every block that existed before, and
those keep their contents), holds exactly the bytes of the buffer, `header.size`
of them, and whose view is offset `0`, length `header.size`,
`first_item = header.first_item`, `nitems = header.nitems`. -/
theorem payload_integrity (c : Codec) (m : ChannelMultiplexer) (s : Connection)
    (header : StreamBlockHeader) (channel : ChannelPtr) (buffer : Buffer)
    (hsize : buffer.size = header.size) :
    ∃ m1 rank blk,
      m.OnStreamBlock c s header channel buffer = .ok () m1 ∧
      (emitted m m1).filter Event.isChannelCallback = [.OnStreamBlock channel rank blk] ∧
      blk.bytes = m.byte_blocks.length ∧
      m1.byte_blocks = m.byte_blocks ++ [buffer.data] ∧
      (∃ bytes, m1.byte_blocks[blk.bytes]? = some bytes ∧ bytes.length = header.size ∧
        ∀ j, j < header.size → bytes[j]? = buffer.data[j]?) ∧
      blk.offset = 0 ∧ blk.length = header.size ∧
      blk.first_item = header.first_item ∧ blk.nitems = header.nitems := by
  refine ⟨_, m.sender_worker_rank header,
    ⟨m.byte_blocks.length, 0, header.size, header.first_item, header.nitems⟩,
    OnStreamBlock_ok c m s header channel buffer hsize.symm, ?_, rfl, rfl, ?_, rfl, rfl, rfl, rfl⟩
  · simp [emitted, Event.isChannelCallback]
  · exact ⟨buffer.data, by simp, hsize, fun _ _ => rfl⟩

/-- C6, evaluated on a three-byte payload. -/
theorem payload_integrity_witness :
    ∃ m1 rank blk,
      (ctor 4).OnStreamBlock sampleCodec ⟨1⟩ ⟨5, 3, 0, 1, 3, 2, 1⟩ 0 (.valid [10, 20, 30]) =
        .ok () m1 ∧
      (emitted (ctor 4) m1).filter Event.isChannelCallback = [.OnStreamBlock 0 rank blk] ∧
      blk.bytes = 0 ∧
      m1.byte_blocks = [[10, 20, 30]] ∧
      (∃ bytes, m1.byte_blocks[blk.bytes]? = some bytes ∧ bytes.length = 3 ∧
        ∀ j, j < 3 → bytes[j]? = ([10, 20, 30] : List Byte)[j]?) ∧
      blk.offset = 0 ∧ blk.length = 3 ∧ blk.first_item = 0 ∧ blk.nitems = 1 :=
  payload_integrity sampleCodec (ctor 4) ⟨1⟩ ⟨5, 3, 0, 1, 3, 2, 1⟩ 0 (.valid [10, 20, 30]) rfl

/-- C7. Payload size mismatch is fatal.  `OnStreamBlock` ends the process
exactly when the delivered buffer's size differs from `header.size`; it then
dies in `die_unless` before anything is done, so the state at death is the
state at entry: nothing was delivered to the channel and no read was issued.
With equal sizes it returns. -/
theorem payload_size_mismatch (c : Codec) (m : ChannelMultiplexer) (s : Connection)
    (header : StreamBlockHeader) (channel : ChannelPtr) (buffer : Buffer) :
    ((∃ f m1, m.OnStreamBlock c s header channel buffer = .abort f m1) ↔
        header.size ≠ buffer.size) ∧
      (∀ f m1, m.OnStreamBlock c s header channel buffer = .abort f m1 →
        f = .die ∧ m1 = m ∧ emitted m m1 = [] ∧ m1.dispatcher_.pending = m.dispatcher_.pending) ∧
      (header.size = buffer.size ↔
        ∃ m1, m.OnStreamBlock c s header channel buffer = .ok () m1) := by
  by_cases hsize : header.size = buffer.size
  · have hok := OnStreamBlock_ok c m s header channel buffer hsize
    refine ⟨⟨?_, fun hne => absurd hsize hne⟩, ?_, ⟨fun _ => ⟨_, hok⟩, fun _ => hsize⟩⟩
    · rintro ⟨f, m1, hab⟩
      rw [hok] at hab
      cases hab
    · intro f m1 hab
      rw [hok] at hab
      cases hab
  · have hab : m.OnStreamBlock c s header channel buffer = .abort .die m := by
      simp only [OnStreamBlock, hsize, if_false]
    refine ⟨⟨fun _ => hsize, fun _ => ⟨_, _, hab⟩⟩, ?_, ⟨fun h => absurd h hsize, ?_⟩⟩
    · intro f m1 h1
      rw [hab] at h1
      cases h1
      exact ⟨rfl, rfl, by simp [emitted], rfl⟩
    · rintro ⟨m1, h1⟩
      rw [hab] at h1
      cases h1

/-- C8. Transport closure stops the pipeline silently.  When the dispatcher
completes a pending header read with an invalid buffer, `OnStreamBlockHeader`
returns at once with the state it was given: the read is gone from the
dispatcher and no new one is issued, nothing is added to the trace (no channel
callback, no read), and the channel table, the constructed channels and the id
counters are unchanged. -/
theorem transport_closure (c : Codec) (m : ChannelMultiplexer) (i : Nat) (s : Connection)
    (n : Nat) (hpend : m.dispatcher_.pending[i]? = some ⟨s, n, .header⟩) :
    (∀ m0 : ChannelMultiplexer, m0.OnStreamBlockHeader c s .invalid = .ok () m0) ∧
      ∃ m1, applyOp c m (.complete i .invalid) = some m1 ∧
        m1.dispatcher_.pending = m.dispatcher_.pending.eraseIdx i ∧
        m1.trace = m.trace ∧ emitted m m1 = [] ∧
        m1.channels_ = m.channels_ ∧ m1.channel_objs = m.channel_objs ∧
        m1.next_id_ = m.next_id_ := by
  refine ⟨fun _ => rfl,
    { m with dispatcher_ :=
      { m.dispatcher_ with pending := m.dispatcher_.pending.eraseIdx i } },
    ?_, rfl, rfl, by simp [emitted], rfl, rfl, rfl⟩
  simp only [applyOp, hpend, invoke, OnStreamBlockHeader, Res.toOption]

/-- C8, evaluated on the header read that `Connect` arms on connection 1. -/
theorem transport_closure_witness :
    (∀ m0 : ChannelMultiplexer, m0.OnStreamBlockHeader sampleCodec ⟨1⟩ .invalid = .ok () m0) ∧
      ∃ m1, applyOp sampleCodec ((ctor 4).Connect sampleCodec ⟨2, 0⟩) (.complete 0 .invalid) =
          some m1 ∧
        m1.dispatcher_.pending = [] ∧
        m1.trace = [.AsyncRead ⟨1⟩ 7 .header] ∧
        emitted ((ctor 4).Connect sampleCodec ⟨2, 0⟩) m1 = [] ∧
        m1.channels_ = [] ∧ m1.channel_objs = [] ∧ m1.next_id_ = [0, 0, 0, 0] :=
  transport_closure sampleCodec ((ctor 4).Connect sampleCodec ⟨2, 0⟩) 0 ⟨1⟩ 7 rfl

/-- C9. Connect arms every remote connection except the own one.  For a
group with `group.num_connections` connections and own connection id
`group.my_connection_id`, `Connect` records the group and what it adds to the
trace is exactly one read of `sizeof(StreamBlockHeader)` bytes with the header
closure for each connection index below `num_connections` other than the own
one, in increasing order of the index; the same requests, in the same order,
are what it adds to the dispatcher.  Each such connection gets one read, the
own connection and indexes out of range get none, and the number of reads is
`num_connections - 1` when the own id is in range (`num_connections`
otherwise). -/
theorem connect_arms_remote_connections (c : Codec) (m : ChannelMultiplexer) (group : Group) :
    (m.Connect c group).group_ = some group ∧
      emitted m (m.Connect c group) =
        ((List.range group.num_connections).filter
          (fun i => decide (i ≠ group.my_connection_id))).map
          (fun i => Event.AsyncRead (group.connection i) c.sizeofHeader .header) ∧
      (m.Connect c group).dispatcher_.pending = m.dispatcher_.pending ++
        ((List.range group.num_connections).filter
          (fun i => decide (i ≠ group.my_connection_id))).map
          (fun i => ⟨group.connection i, c.sizeofHeader, .header⟩) ∧
      (∀ i, (emitted m (m.Connect c group)).count
          (Event.AsyncRead (group.connection i) c.sizeofHeader .header) =
        if i < group.num_connections ∧ i ≠ group.my_connection_id then 1 else 0) ∧
      (emitted m (m.Connect c group)).length =
        group.num_connections - if group.my_connection_id < group.num_connections then 1 else 0 := by
  have hem : emitted m (m.Connect c group) =
      ((List.range group.num_connections).filter
        (fun i => decide (i ≠ group.my_connection_id))).map
        (fun i => Event.AsyncRead (group.connection i) c.sizeofHeader .header) := by
    rw [← connectReads_events]
    simp [emitted, Connect_eq]
  have hinj : Function.Injective
      (fun i => Event.AsyncRead (group.connection i) c.sizeofHeader .header) := by
    intro a b hab
    simpa [Group.connection] using hab
  refine ⟨by simp [Connect_eq], hem, ?_, ?_, ?_⟩
  · simp [Connect_eq, connectReads, List.range_eq_range']
  · intro i
    rw [hem, List.count_map_of_injective _ _ hinj,
      List.count_eq_of_nodup ((List.nodup_range _).filter _)]
    simp [List.mem_filter, List.mem_range]
  · rw [hem, List.length_map, length_filter_ne_range]

/-- C10. Teardown closes every channel exactly once.  In any state reached
from a newly built multiplexer in which a group is attached, the destructor
calls `Close()` once on every channel of the table and never on anything else;
the channels of the table are exactly the channels constructed so far, whatever
end-of-stream markers have arrived for them. -/
theorem teardown_closes_every_channel (c : Codec) (k : Nat) (ops : List Op)
    (m : ChannelMultiplexer) (g : Group)
    (hrun : runOps c (ctor k) ops = some m) (hg : m.group_ = some g) :
    (∀ ch : ChannelPtr, (emitted m m.dtor).count (.ChannelClose ch) =
        if ch ∈ m.channels_.map Prod.snd then 1 else 0) ∧
      (∀ ch : ChannelPtr, ch ∈ m.channels_.map Prod.snd ↔ ch < m.channel_objs.length) := by
  have hinv := inv_runOps (Inv.ctor k) hrun
  constructor
  · intro ch
    have hinj : Function.Injective (fun v : ChannelPtr => Event.ChannelClose v) := by
      intro a b hab
      simpa using hab
    have hmap : m.channels_.map (fun e => Event.ChannelClose e.2) =
        (m.channels_.map Prod.snd).map (fun v : ChannelPtr => Event.ChannelClose v) := by
      simp [Function.comp_def]
    have hem : emitted m m.dtor =
        (m.channels_.map Prod.snd).map (fun v : ChannelPtr => Event.ChannelClose v) ++
          [.Terminate, .GroupClose] := by
      rw [← hmap]
      simp [emitted, dtor_trace hg]
    rw [hem, List.count_append, List.count_map_of_injective _ _ hinj,
      List.count_eq_of_nodup hinv.table.nodup]
    simp
  · intro ch
    constructor
    · intro hmem
      obtain ⟨e, he, hv⟩ := List.mem_map.1 hmem
      have hlt := @TableInv.lt_length _ _ hinv.table e.1 e.2 he
      rw [hv] at hlt
      exact hlt
    · intro hlt
      obtain ⟨obj, hobj⟩ : ∃ obj, m.channel_objs[ch]? = some obj :=
        ⟨m.channel_objs[ch], List.getElem?_eq_getElem hlt⟩
      exact List.mem_map.2 ⟨_, map_find_some_mem (hinv.table.stored ch obj hobj), rfl⟩

/-- C10, evaluated on the sample run: two channels in the table, one of which
has received an end-of-stream marker; each is closed once. -/
theorem teardown_closes_every_channel_witness :
    (∀ ch : ChannelPtr, (emitted sampleState sampleState.dtor).count (.ChannelClose ch) =
        if ch ∈ sampleState.channels_.map Prod.snd then 1 else 0) ∧
      (∀ ch : ChannelPtr, ch ∈ sampleState.channels_.map Prod.snd ↔
        ch < sampleState.channel_objs.length) :=
  teardown_closes_every_channel sampleCodec 4 sampleOps sampleState ⟨2, 0⟩ rfl rfl

/-- C3. Get-or-create with one instance per key.  In any state `m` reached
from a newly built multiplexer with a group attached, `GetOrCreateChannel(id, w)`
returns a channel `ch`.  If the key was absent, `ch` is a newly constructed
`Channel(id, group, dispatcher, w, k)` and the table gains the entry
`(w, id) ↦ ch`; if it was present, nothing is constructed and the table is
unchanged.  After that, whatever operations follow, every further call for the
key returns the same `ch`, constructs nothing and leaves the table unchanged,
and among all channels ever constructed exactly one is bound to `(id, w)`. -/
theorem get_or_create_one_instance_per_key (c : Codec) (k : Nat) (ops : List Op)
    (m : ChannelMultiplexer) (g : Group) (id w : Nat)
    (hrun : runOps c (ctor k) ops = some m) (hg : m.group_ = some g) :
    ∃ ch m1, m.GetOrCreateChannel id w = .ok ch m1 ∧
      (m.HasChannel id w = false →
        ch = m.channel_objs.length ∧ m1.channel_objs = m.channel_objs ++ [⟨id, g, w, k⟩] ∧
          m1.channels_ = map_insert m.channels_ (w, id) ch) ∧
      (m.HasChannel id w = true →
        m1.channel_objs = m.channel_objs ∧ m1.channels_ = m.channels_) ∧
      ∀ ops2 m2, runOps c m1 ops2 = some m2 →
        (∃ m3, m2.GetOrCreateChannel id w = .ok ch m3 ∧
          m3.channel_objs = m2.channel_objs ∧ m3.channels_ = m2.channels_) ∧
        m2.channel_objs.countP (fun o => decide (o.id = id ∧ o.local_worker_id = w)) = 1 := by
  have hinv := inv_runOps (Inv.ctor k) hrun
  obtain ⟨ch, m1, hgc⟩ := GetOrCreateChannel_total m id w hg
  have hinv1 := (inv_GetOrCreateChannel hinv hgc).1
  obtain ⟨-, -, -, -, -, hg1, hfind1⟩ := GetOrCreateChannel_frame hgc
  refine ⟨ch, m1, hgc, ?_, ?_, ?_⟩
  · intro hno
    have hf : map_find m.channels_ (w, id) = none := by
      simpa [HasChannel] using hno
    have hnew := GetOrCreateChannel_new m id w hg hf
    rw [hgc] at hnew
    cases hnew
    exact ⟨rfl, by rw [hinv.workers], rfl⟩
  · intro hyes
    obtain ⟨ch0, hf⟩ := Option.isSome_iff_exists.1 hyes
    have hold := GetOrCreateChannel_found m id w hg hf
    rw [hgc] at hold
    cases hold
    exact ⟨rfl, rfl⟩
  · intro ops2 m2 hrun2
    have hinv2 := inv_runOps hinv1 hrun2
    have hf2 := (runOps_find hrun2 id w).2 ch hfind1
    have hg2 : m2.group_.isSome = true := runOps_group hrun2 (by rw [hg1, hg]; rfl)
    obtain ⟨g2, hg2⟩ := Option.isSome_iff_exists.1 hg2
    exact ⟨⟨_, GetOrCreateChannel_found m2 id w hg2 hf2, rfl, rfl⟩, hinv2.table.count_one hf2⟩

/-- C3, evaluated at the end of the sample run for the new key `(9, 3)`. -/
theorem get_or_create_one_instance_per_key_witness :
    ∃ ch m1, sampleState.GetOrCreateChannel 9 3 = .ok ch m1 ∧
      (sampleState.HasChannel 9 3 = false →
        ch = sampleState.channel_objs.length ∧
          m1.channel_objs = sampleState.channel_objs ++ [⟨9, ⟨2, 0⟩, 3, 4⟩] ∧
          m1.channels_ = map_insert sampleState.channels_ (3, 9) ch) ∧
      (sampleState.HasChannel 9 3 = true →
        m1.channel_objs = sampleState.channel_objs ∧ m1.channels_ = sampleState.channels_) ∧
      ∀ ops2 m2, runOps sampleCodec m1 ops2 = some m2 →
        (∃ m3, m2.GetOrCreateChannel 9 3 = .ok ch m3 ∧
          m3.channel_objs = m2.channel_objs ∧ m3.channels_ = m2.channels_) ∧
        m2.channel_objs.countP (fun o => decide (o.id = 9 ∧ o.local_worker_id = 3)) = 1 :=
  get_or_create_one_instance_per_key sampleCodec 4 sampleOps sampleState ⟨2, 0⟩ 9 3 rfl rfl

/-- C4 fails as stated at `n = 2 ^ 64`.  On a multiplexer built for one worker,
after `2 ^ 64 - 1` calls `AllocateNext(0)` the next call, the `2 ^ 64`-th,
returns `0`: the `size_t` counter wraps. -/
theorem allocate_next_wraps :
    wrapOps.count (.AllocateNext 0) + 1 = 2 ^ 64 ∧
      ∃ m m1, runOps sampleCodec (ctor 1) wrapOps = some m ∧
        m.AllocateNext 0 = .ok 0 m1 := by
  have hcount : wrapOps.count (.AllocateNext 0) = SIZE_T_MOD - 1 :=
    List.count_replicate_self _ _
  have hone : 1 ≤ SIZE_T_MOD := SIZE_T_MOD_pos
  obtain ⟨m, hm⟩ := runOps_allocations sampleCodec (SIZE_T_MOD - 1) 0 (ctor 1) Nat.one_pos
  have hm2 : runOps sampleCodec (ctor 1) wrapOps = some m := hm
  obtain ⟨hlen, hval⟩ := runOps_next_id hm2 0 Nat.one_pos SIZE_T_MOD_pos
  have hzero : (ctor 1).next_id_.getD 0 0 = 0 := rfl
  rw [hzero, Nat.zero_add, hcount, Nat.mod_eq_of_lt (Nat.sub_lt SIZE_T_MOD_pos Nat.one_pos)]
    at hval
  have hlen1 : 0 < m.next_id_.length := by
    rw [hlen]
    exact Nat.one_pos
  refine ⟨by rw [hcount, Nat.sub_add_cancel hone]; rfl, m,
    { m with next_id_ := m.next_id_.set 0 0 }, hm2, ?_⟩
  simp only [AllocateNext, hlen1, if_true, hval, Nat.sub_add_cancel hone, Nat.mod_self]

/-- C4, amended.  Take any execution `ops` of a multiplexer built for `k`
workers per node and a worker `w < k`.  If `ops` contains `n - 1` calls
`AllocateNext(w)`, interleaved with whatever other operations, and
`n < 2 ^ 64`, then the next call `AllocateNext(w)` returns `n`: up to the
largest `size_t` the `n`-th call returns `n`, so the results for `w` increase
by one each time and are not `0`.  The call changes no counter but the one of
`w` and touches neither the table nor the trace. -/
theorem allocate_next_sequence (c : Codec) (k : Nat) (ops : List Op) (m : ChannelMultiplexer)
    (w : Nat) (hw : w < k) (hrun : runOps c (ctor k) ops = some m)
    (hbound : ops.count (.AllocateNext w) + 1 < SIZE_T_MOD) :
    ∃ m1, m.AllocateNext w = .ok (ops.count (.AllocateNext w) + 1) m1 ∧
      m1.next_id_[w]? = some (ops.count (.AllocateNext w) + 1) ∧
      (∀ w2, w2 ≠ w → m1.next_id_[w2]? = m.next_id_[w2]?) ∧
      m1.channels_ = m.channels_ ∧ m1.channel_objs = m.channel_objs ∧ m1.trace = m.trace := by
  have hlen0 : w < (ctor k).next_id_.length := by simpa [ctor] using hw
  have hzero : (ctor k).next_id_.getD w 0 = 0 := by
    simp [ctor, List.getD_eq_getElem?_getD, List.getElem?_replicate, hw]
  obtain ⟨hlen, hval⟩ := runOps_next_id hrun w hlen0 (by rw [hzero]; exact SIZE_T_MOD_pos)
  have hwlen : w < m.next_id_.length := by rw [hlen]; exact hlen0
  rw [hzero, Nat.zero_add, Nat.mod_eq_of_lt (Nat.lt_of_succ_lt hbound)] at hval
  have hnext : (m.next_id_.getD w 0 + 1) % SIZE_T_MOD = ops.count (.AllocateNext w) + 1 := by
    rw [hval, Nat.mod_eq_of_lt hbound]
  refine ⟨{ m with next_id_ := m.next_id_.set w (ops.count (.AllocateNext w) + 1) },
    ?_, ?_, ?_, rfl, rfl, rfl⟩
  · simp only [AllocateNext, hwlen, if_true, hnext]
  · simp [List.getElem?_set, hwlen]
  · intro w2 hne
    simp [List.getElem?_set, Ne.symm hne]

/-- C4 amended, evaluated at the end of the sample run, which holds two calls
`AllocateNext(1)`: the third call returns 3. -/
theorem allocate_next_sequence_witness :
    ∃ m1, sampleState.AllocateNext 1 = .ok 3 m1 ∧
      m1.next_id_[1]? = some 3 ∧
      (∀ w2, w2 ≠ 1 → m1.next_id_[w2]? = sampleState.next_id_[w2]?) ∧
      m1.channels_ = sampleState.channels_ ∧ m1.channel_objs = sampleState.channel_objs ∧
      m1.trace = sampleState.trace :=
  allocate_next_sequence sampleCodec 4 sampleOps sampleState 1 (by decide) rfl (by decide)

/-- C5. HasChannel characterises creation.  In any state reached by an
execution `ops` from a newly built multiplexer, `HasChannel(id, w)` holds
exactly when the execution asked the table for the pair `(id, w)`, through a
call `GetOrCreateChannel(id, w)` or through a valid inbound header with
`channel_id = id` and `receiver_local_worker_id = w`, and exactly when some
constructed channel is bound to `(id, w)`.  On a newly built multiplexer it is
false for every key, and a step that asks for `(id, w)` with `id ≠ w` leaves
the answer for `(w, id)` as it was. -/
theorem has_channel_characterises_creation (c : Codec) (k : Nat) (ops : List Op)
    (m : ChannelMultiplexer) (id w : Nat) (hrun : runOps c (ctor k) ops = some m) :
    (m.HasChannel id w = true ↔ (id, w) ∈ requestedKeys c (ctor k) ops) ∧
      (m.HasChannel id w = true ↔
        ∃ obj ∈ m.channel_objs, obj.id = id ∧ obj.local_worker_id = w) ∧
      (ctor k).HasChannel id w = false ∧
      ∀ op m1, applyOp c m op = some m1 → requestedKey c m op = some (id, w) → id ≠ w →
        m1.HasChannel w id = m.HasChannel w id := by
  have hinv := inv_runOps (Inv.ctor k) hrun
  have hfresh : (ctor k).HasChannel id w = false := by simp [HasChannel, ctor, map_find]
  refine ⟨?_, ?_, hfresh, ?_⟩
  · rw [(runOps_find hrun id w).1, hfresh]
    simp
  · constructor
    · intro hhas
      obtain ⟨ch, hf⟩ := Option.isSome_iff_exists.1 hhas
      obtain ⟨obj, hobj, hkey⟩ := hinv.table.bound (w, id) ch (map_find_some_mem hf)
      exact ⟨obj, List.getElem?_mem hobj, congrArg Prod.snd hkey, congrArg Prod.fst hkey⟩
    · rintro ⟨obj, hmem, hid, hw⟩
      obtain ⟨j, hj⟩ := List.getElem?_of_mem hmem
      have hs := hinv.table.stored j obj hj
      rw [hid, hw] at hs
      simp [HasChannel, hs]
  · intro op m1 hop hkey hne
    have hiff := (applyOp_find hop w id).1
    have hnot : requestedKey c m op ≠ some (w, id) := by
      rw [hkey]
      intro hc
      exact hne (congrArg Prod.fst (Option.some.inj hc))
    cases h1 : m1.HasChannel w id <;> cases h0 : m.HasChannel w id
    · rfl
    · exact absurd (hiff.2 (Or.inl h0)) (by simp [h1])
    · rcases hiff.1 h1 with h2 | h2
      · exact absurd h2 (by simp [h0])
      · exact absurd h2 hnot
    · rfl

/-- C5, evaluated at the end of the sample run for the key `(5, 2)`, which an
inbound end-of-stream header asked for. -/
theorem has_channel_characterises_creation_witness :
    (sampleState.HasChannel 5 2 = true ↔ (5, 2) ∈ requestedKeys sampleCodec (ctor 4) sampleOps) ∧
      (sampleState.HasChannel 5 2 = true ↔
        ∃ obj ∈ sampleState.channel_objs, obj.id = 5 ∧ obj.local_worker_id = 2) ∧
      (ctor 4).HasChannel 5 2 = false ∧
      ∀ op m1, applyOp sampleCodec sampleState op = some m1 →
        requestedKey sampleCodec sampleState op = some (5, 2) → 5 ≠ 2 →
        m1.HasChannel 2 5 = sampleState.HasChannel 2 5 :=
  has_channel_characterises_creation sampleCodec 4 sampleOps sampleState 5 2 rfl

/-- C11. Teardown order.  With a group attached, what the destructor does is, in
this order: one `Close()` per entry of the channel table, then
`dispatcher_.Terminate()`, then `group_->Close()`, and nothing more.  So every
channel `Close()` comes before the one `Terminate()`, which comes before the
one `Close()` of the group, and the group's `Close()` is the last call. -/
theorem teardown_order (m : ChannelMultiplexer) (g : Group) (hg : m.group_ = some g) :
    emitted m m.dtor =
        m.channels_.map (fun e => Event.ChannelClose e.2) ++ [.Terminate, .GroupClose] ∧
      (emitted m m.dtor).count .Terminate = 1 ∧
      (emitted m m.dtor).count .GroupClose = 1 ∧
      (emitted m m.dtor).getLast? = some .GroupClose ∧
      ∀ pre post, emitted m m.dtor = pre ++ .Terminate :: post →
        (∀ e ∈ pre, ∃ ch, e = Event.ChannelClose ch) ∧ post = [.GroupClose] := by
  have hem : emitted m m.dtor =
      m.channels_.map (fun e => Event.ChannelClose e.2) ++ [.Terminate, .GroupClose] := by
    simp [emitted, dtor_trace hg]
  have hnot : ∀ (e : Event), e ∈ m.channels_.map (fun e => Event.ChannelClose e.2) →
      e ≠ .Terminate ∧ e ≠ .GroupClose := by
    intro e he
    obtain ⟨x, -, rfl⟩ := List.mem_map.1 he
    exact ⟨by simp, by simp⟩
  have hc1 : (m.channels_.map (fun e => Event.ChannelClose e.2)).count .Terminate = 0 :=
    List.count_eq_zero.2 (fun hmem => (hnot _ hmem).1 rfl)
  have hc2 : (m.channels_.map (fun e => Event.ChannelClose e.2)).count .GroupClose = 0 :=
    List.count_eq_zero.2 (fun hmem => (hnot _ hmem).2 rfl)
  refine ⟨hem, ?_, ?_, ?_, ?_⟩
  · rw [hem, List.count_append, hc1]
    decide
  · rw [hem, List.count_append, hc2]
    decide
  · rw [hem]
    simp
  · intro pre post hsplit
    rw [hem] at hsplit
    obtain ⟨hpre, hpost⟩ := split_unique (fun hmem => (hnot _ hmem).1 rfl) (by simp) hsplit
    refine ⟨?_, hpost⟩
    intro e he
    rw [hpre] at he
    obtain ⟨x, -, rfl⟩ := List.mem_map.1 he
    exact ⟨x.2, rfl⟩

/-- C11, evaluated at the end of the sample run: two channels are closed, then
the dispatcher is terminated, then the group is closed. -/
theorem teardown_order_witness :
    emitted sampleState sampleState.dtor =
        [.ChannelClose 0, .ChannelClose 1] ++ [.Terminate, .GroupClose] ∧
      (emitted sampleState sampleState.dtor).count .Terminate = 1 ∧
      (emitted sampleState sampleState.dtor).count .GroupClose = 1 ∧
      (emitted sampleState sampleState.dtor).getLast? = some .GroupClose ∧
      ∀ pre post, emitted sampleState sampleState.dtor = pre ++ .Terminate :: post →
        (∀ e ∈ pre, ∃ ch, e = Event.ChannelClose ch) ∧ post = [.GroupClose] :=
  teardown_order sampleState ⟨2, 0⟩ rfl

/-- C13 at a failing input.  At the end of the sample run, `AllocateNext(1)`
returns 3 and rewrites the id counters without any call on the mutex, and
`HasChannel(5, 2)` answers from the table as a step that records no call at
all; `GetOrCreateChannel(5, 2)`, which reads the same table, does so between
`lock` and `unlock`. -/
theorem lock_discipline_misses_two_paths :
    (∃ m1, sampleState.AllocateNext 1 = .ok 3 m1 ∧
        m1.next_id_ ≠ sampleState.next_id_ ∧
        (emitted sampleState m1).filter Event.isMutex = []) ∧
      (sampleState.HasChannel 5 2 = true ∧
        ∃ m1, applyOp sampleCodec sampleState (.HasChannel 5 2) = some m1 ∧
          (emitted sampleState m1).filter Event.isMutex = []) ∧
      (∃ ch m1, sampleState.GetOrCreateChannel 5 2 = .ok ch m1 ∧
        emitted sampleState m1 = [.lock, .unlock]) := by
  refine ⟨⟨_, rfl, by decide, by decide⟩, ⟨by decide, _, rfl, by decide⟩, ⟨_, _, rfl, by decide⟩⟩

/-- C14. Fail fast on an unattached multiplexer.  After any execution without a
call of `Connect` the group is still null, and every call
`GetOrCreateChannel(id, w)` then ends in the failed `assert(group_ != nullptr)`
instead of returning; at that point no channel has been constructed and the
table is as it was. -/
theorem fail_fast_unattached (c : Codec) (k : Nat) (ops : List Op) (m : ChannelMultiplexer)
    (id w : Nat) (hrun : runOps c (ctor k) ops = some m)
    (hnc : ∀ op ∈ ops, op.isConnect = false) :
    m.group_ = none ∧
      ∃ m1, m.GetOrCreateChannel id w = .abort .assertion m1 ∧
        m1.channel_objs = m.channel_objs ∧ m1.channels_ = m.channels_ ∧
        (emitted m m1).filter Event.isChannelCallback = [] ∧
        applyOp c m (.GetOrCreateChannel id w) = none := by
  have hg : m.group_ = none := runOps_unattached hrun hnc rfl
  have hab := GetOrCreateChannel_unattached m id w hg
  refine ⟨hg, m.emit .lock, hab, rfl, rfl, by simp [emitted, emit, Event.isChannelCallback], ?_⟩
  simp only [applyOp, hab, Res.toOption]

/-- C14, evaluated on a multiplexer that has only handed out two ids. -/
theorem fail_fast_unattached_witness :
    ((runOps sampleCodec (ctor 4) [.AllocateNext 1, .HasChannel 1 1]).getD (ctor 4)).group_ = none ∧
      ∃ m1, ((runOps sampleCodec (ctor 4) [.AllocateNext 1, .HasChannel 1 1]).getD
            (ctor 4)).GetOrCreateChannel 1 1 = .abort .assertion m1 ∧
        m1.channel_objs =
          ((runOps sampleCodec (ctor 4) [.AllocateNext 1, .HasChannel 1 1]).getD
            (ctor 4)).channel_objs ∧
        m1.channels_ =
          ((runOps sampleCodec (ctor 4) [.AllocateNext 1, .HasChannel 1 1]).getD
            (ctor 4)).channels_ ∧
        (emitted ((runOps sampleCodec (ctor 4) [.AllocateNext 1, .HasChannel 1 1]).getD
          (ctor 4)) m1).filter Event.isChannelCallback = [] ∧
        applyOp sampleCodec
          ((runOps sampleCodec (ctor 4) [.AllocateNext 1, .HasChannel 1 1]).getD (ctor 4))
          (.GetOrCreateChannel 1 1) = none :=
  fail_fast_unattached sampleCodec 4 [.AllocateNext 1, .HasChannel 1 1] _ 1 1 rfl (by decide)

/-- C15 at a failing input.  On a connected multiplexer for four workers the
first `AllocateNext(1)` returns 1, and `HasChannel(1, 1)` is false afterwards:
allocating an id creates no channel. -/
theorem allocated_id_has_no_channel :
    ∃ m1, ((ctor 4).Connect sampleCodec ⟨2, 0⟩).AllocateNext 1 = .ok 1 m1 ∧
      m1.HasChannel 1 1 = false ∧ m1.channels_ = [] ∧ m1.channel_objs = [] :=
  ⟨_, rfl, rfl, rfl, rfl⟩

/-- C18. Channel table entries are never removed or replaced.  Whatever step a
live multiplexer takes (`Connect`, `HasChannel`, `AllocateNext`,
`GetOrCreateChannel`, a header completion or a payload completion), a key that
maps to a channel before the step maps to the same channel after it.  The
destructor leaves the table and the constructed channels as they are. -/
theorem table_entries_persist (c : Codec) (m m1 : ChannelMultiplexer) (op : Op) (key : Key)
    (ch : ChannelPtr) (hop : applyOp c m op = some m1)
    (hkey : map_find m.channels_ key = some ch) :
    map_find m1.channels_ key = some ch ∧ m1.HasChannel key.2 key.1 = true ∧
      m.dtor.channels_ = m.channels_ ∧ m.dtor.channel_objs = m.channel_objs ∧
      map_find m.dtor.channels_ key = some ch := by
  have hkeep := (applyOp_find hop key.2 key.1).2 ch hkey
  refine ⟨hkeep, ?_, (dtor_channels m).1, (dtor_channels m).2, ?_⟩
  · have h2 : map_find m1.channels_ (key.1, key.2) = some ch := hkeep
    simp [HasChannel, h2]
  · rw [(dtor_channels m).1]
    exact hkey

/-- C18, evaluated at the end of the sample run: the entry for channel 5 of
worker 2 survives the creation of channel 1 for worker 0, which is inserted in
front of it. -/
theorem table_entries_persist_witness :
    map_find ((sampleState.GetOrCreateChannel 1 0).toOption.getD sampleState).channels_ (2, 5) =
        some 1 ∧
      ((sampleState.GetOrCreateChannel 1 0).toOption.getD sampleState).HasChannel 5 2 = true ∧
      sampleState.dtor.channels_ = sampleState.channels_ ∧
      sampleState.dtor.channel_objs = sampleState.channel_objs ∧
      map_find sampleState.dtor.channels_ (2, 5) = some 1 :=
  table_entries_persist sampleCodec sampleState _ (.GetOrCreateChannel 1 0) (2, 5) 1 rfl rfl

/-- C20. The effective sender id separates senders.  For headers whose
`sender_local_worker_id` is below the number `k` of workers per node (so
`k ≥ 1`) and whose flattened rank does not overflow 64 bits, the rank the code
computes determines the pair `(sender_rank, sender_local_worker_id)`.  The
close path and the data path pass the same value for the same header: the
`OnCloseStream` made by `OnStreamBlockHeader` and the `OnStreamBlock` made by
`OnStreamBlock` both carry `sender_worker_rank` of the header.  The code does
not check the bound: with `k = 4` the senders `(0, 4)` and `(1, 0)` get the
same id. -/
theorem sender_id_separates_senders (c : Codec) (m : ChannelMultiplexer)
    (h1 h2 : StreamBlockHeader)
    (hl1 : h1.sender_local_worker_id < m.num_workers_per_node_)
    (hl2 : h2.sender_local_worker_id < m.num_workers_per_node_)
    (hfit1 : h1.sender_rank * m.num_workers_per_node_ + h1.sender_local_worker_id < SIZE_T_MOD)
    (hfit2 : h2.sender_rank * m.num_workers_per_node_ + h2.sender_local_worker_id < SIZE_T_MOD) :
    (m.sender_worker_rank h1 = m.sender_worker_rank h2 →
        h1.sender_rank = h2.sender_rank ∧
          h1.sender_local_worker_id = h2.sender_local_worker_id) ∧
      m.sender_worker_rank h1 =
        h1.sender_rank * m.num_workers_per_node_ + h1.sender_local_worker_id ∧
      (∀ (s : Connection) (hb : List Byte) (g : Group), m.group_ = some g →
        c.IsStreamEnd (c.ParseHeader hb) = true →
        ∃ ch m1, m.OnStreamBlockHeader c s (.valid hb) = .ok () m1 ∧
          (emitted m m1).filter Event.isChannelCallback =
            [.OnCloseStream ch (m.sender_worker_rank (c.ParseHeader hb))]) ∧
      (∀ (s : Connection) (header : StreamBlockHeader) (ch : ChannelPtr) (buffer : Buffer),
        header.size = buffer.size →
        ∃ m1 blk, m.OnStreamBlock c s header ch buffer = .ok () m1 ∧
          (emitted m m1).filter Event.isChannelCallback =
            [.OnStreamBlock ch (m.sender_worker_rank header) blk]) ∧
      (ctor 4).sender_worker_rank ⟨0, 0, 0, 0, 0, 0, 4⟩ =
        (ctor 4).sender_worker_rank ⟨0, 0, 0, 0, 1, 0, 0⟩ := by
  have e1 : m.sender_worker_rank h1 =
      h1.sender_rank * m.num_workers_per_node_ + h1.sender_local_worker_id :=
    Nat.mod_eq_of_lt hfit1
  have e2 : m.sender_worker_rank h2 =
      h2.sender_rank * m.num_workers_per_node_ + h2.sender_local_worker_id :=
    Nat.mod_eq_of_lt hfit2
  refine ⟨?_, e1, ?_, ?_, by decide⟩
  · intro heq
    rw [e1, e2] at heq
    exact flat_rank_injective hl1 hl2 heq
  · intro s hb g hg hend
    obtain ⟨ch, m1, hok, -, htr, -⟩ := OnStreamBlockHeader_valid c m s hb hg
    refine ⟨ch, m1, hok, ?_⟩
    simp [emitted, htr, hend, Event.isChannelCallback]
  · intro s header ch buffer hsize
    refine ⟨_, ⟨m.byte_blocks.length, 0, header.size, header.first_item, header.nitems⟩,
      OnStreamBlock_ok c m s header ch buffer hsize, ?_⟩
    simp [emitted, Event.isChannelCallback]

/-- C20, evaluated for four workers per node on the senders `(3, 1)` and
`(2, 3)`. -/
theorem sender_id_separates_senders_witness :
    ((ctor 4).sender_worker_rank ⟨5, 0, 0, 0, 3, 2, 1⟩ =
          (ctor 4).sender_worker_rank ⟨5, 0, 0, 0, 2, 2, 3⟩ →
        (3 : Nat) = 2 ∧ (1 : Nat) = 3) ∧
      (ctor 4).sender_worker_rank ⟨5, 0, 0, 0, 3, 2, 1⟩ = 3 * 4 + 1 ∧
      (∀ (s : Connection) (hb : List Byte) (g : Group), (ctor 4).group_ = some g →
        sampleCodec.IsStreamEnd (sampleCodec.ParseHeader hb) = true →
        ∃ ch m1, (ctor 4).OnStreamBlockHeader sampleCodec s (.valid hb) = .ok () m1 ∧
          (emitted (ctor 4) m1).filter Event.isChannelCallback =
            [.OnCloseStream ch ((ctor 4).sender_worker_rank (sampleCodec.ParseHeader hb))]) ∧
      (∀ (s : Connection) (header : StreamBlockHeader) (ch : ChannelPtr) (buffer : Buffer),
        header.size = buffer.size →
        ∃ m1 blk, (ctor 4).OnStreamBlock sampleCodec s header ch buffer = .ok () m1 ∧
          (emitted (ctor 4) m1).filter Event.isChannelCallback =
            [.OnStreamBlock ch ((ctor 4).sender_worker_rank header) blk]) ∧
      (ctor 4).sender_worker_rank ⟨0, 0, 0, 0, 0, 0, 4⟩ =
        (ctor 4).sender_worker_rank ⟨0, 0, 0, 0, 1, 0, 0⟩ :=
  sender_id_separates_senders sampleCodec (ctor 4) ⟨5, 0, 0, 0, 3, 2, 1⟩ ⟨5, 0, 0, 0, 2, 2, 3⟩
    (by decide) (by decide) (by decide) (by decide)

/-- C19. The size-mismatch abort is unreachable under an exact-read transport.
In every state of an execution, each pending payload read asks for exactly the
`size` of the header its closure captured.  So when the dispatcher completes a
pending read with a valid buffer of as many bytes as the read asked for, the
`die_unless` of `OnStreamBlock` holds, and the completion, header or payload,
runs to its return. -/
theorem exact_reads_never_die (c : Codec) (k : Nat) (ops : List Op) (m : ChannelMultiplexer)
    (i : Nat) (r : AsyncReadRequest) (bytes : List Byte)
    (hrun : runOps c (ctor k) ops = some m)
    (hpend : m.dispatcher_.pending[i]? = some r)
    (hexact : bytes.length = r.nbytes) :
    PayloadReadsExact m ∧
      (∀ header channel, r.callback = .block header channel →
        r.nbytes = header.size ∧ header.size = (Buffer.valid bytes).size ∧
        ∃ m1, OnStreamBlock c
          { m with dispatcher_ :=
            { m.dispatcher_ with pending := m.dispatcher_.pending.eraseIdx i } }
          r.conn header channel (.valid bytes) = .ok () m1) ∧
      ∃ m1, invoke c
          { m with dispatcher_ :=
            { m.dispatcher_ with pending := m.dispatcher_.pending.eraseIdx i } }
          r (.valid bytes) = .ok () m1 ∧
        applyOp c m (.complete i (.valid bytes)) = some m1 := by
  have hinv := inv_runOps (Inv.ctor k) hrun
  have hex := payloadReadsExact_runOps (payloadReadsExact_ctor k) hrun
  obtain ⟨g, hg⟩ := connected_of_pending hinv hpend
  have hblock : ∀ header channel, r.callback = .block header channel →
      r.nbytes = header.size ∧ header.size = (Buffer.valid bytes).size ∧
      ∃ m1, OnStreamBlock c
        { m with dispatcher_ :=
          { m.dispatcher_ with pending := m.dispatcher_.pending.eraseIdx i } }
        r.conn header channel (.valid bytes) = .ok () m1 := by
    intro header channel hcb
    have hn := hex r (List.getElem?_mem hpend) header channel hcb
    have hsz : header.size = (Buffer.valid bytes).size := by
      simp [Buffer.size, Buffer.data, hexact, hn]
    exact ⟨hn, hsz, _, OnStreamBlock_ok c _ r.conn header channel (.valid bytes) hsz⟩
  refine ⟨hex, hblock, ?_⟩
  cases hcb : r.callback with
  | header =>
    obtain ⟨ch, m1, hok, -⟩ := OnStreamBlockHeader_valid c
      { m with dispatcher_ :=
        { m.dispatcher_ with pending := m.dispatcher_.pending.eraseIdx i } }
      r.conn bytes hg
    refine ⟨m1, by simp only [invoke, hcb, hok], ?_⟩
    simp only [applyOp, hpend, invoke, hcb, hok, Res.toOption]
  | block header channel =>
    obtain ⟨-, -, m1, hok⟩ := hblock header channel hcb
    refine ⟨m1, by simp only [invoke, hcb, hok], ?_⟩
    simp only [applyOp, hpend, invoke, hcb, hok, Res.toOption]

/-- C19, evaluated on the pending three-byte payload read of the sample state,
completed with three bytes. -/
theorem exact_reads_never_die_witness :
    PayloadReadsExact sampleAwaitPayload ∧
      (∀ header channel,
        (⟨⟨1⟩, 3, .block ⟨5, 3, 0, 1, 3, 2, 1⟩ 0⟩ : AsyncReadRequest).callback =
          .block header channel →
        (3 : Nat) = header.size ∧ header.size = (Buffer.valid [10, 20, 30]).size ∧
        ∃ m1, OnStreamBlock sampleCodec
          { sampleAwaitPayload with dispatcher_ := ⟨[], false⟩ }
          ⟨1⟩ header channel (.valid [10, 20, 30]) = .ok () m1) ∧
      ∃ m1, invoke sampleCodec
          { sampleAwaitPayload with dispatcher_ := ⟨[], false⟩ }
          ⟨⟨1⟩, 3, .block ⟨5, 3, 0, 1, 3, 2, 1⟩ 0⟩ (.valid [10, 20, 30]) = .ok () m1 ∧
        applyOp sampleCodec sampleAwaitPayload (.complete 0 (.valid [10, 20, 30])) = some m1 :=
  exact_reads_never_die sampleCodec 4
    [.Connect ⟨2, 0⟩, .complete 0 (.valid [5, 3, 0, 1, 3, 2, 1])] sampleAwaitPayload 0
    ⟨⟨1⟩, 3, .block ⟨5, 3, 0, 1, 3, 2, 1⟩ 0⟩ [10, 20, 30] rfl rfl rfl

/-- C12 fails as stated, in two places.  A completion with a valid buffer need
not issue a read: in the sample state that awaits a three-byte payload, a valid
two-byte buffer makes `OnStreamBlock` die in `die_unless`, with no read issued
and no callback made.  And two reads can be outstanding on one connection:
`Connect` does not check that it has not run before, and after two calls
connection 1 has two header reads pending. -/
theorem sequencing_counterexample :
    (sampleAwaitPayload.dispatcher_.pending = [⟨⟨1⟩, 3, .block ⟨5, 3, 0, 1, 3, 2, 1⟩ 0⟩] ∧
        (Buffer.valid [10, 20]).IsValid = true ∧
        applyOp sampleCodec sampleAwaitPayload (.complete 0 (.valid [10, 20])) = none ∧
        ∃ m1, invoke sampleCodec { sampleAwaitPayload with dispatcher_ := ⟨[], false⟩ }
            ⟨⟨1⟩, 3, .block ⟨5, 3, 0, 1, 3, 2, 1⟩ 0⟩ (.valid [10, 20]) = .abort .die m1 ∧
          (emitted sampleAwaitPayload m1).filter Event.isRead = [] ∧
          m1.dispatcher_.pending = []) ∧
      ∃ m, runOps sampleCodec (ctor 4) [.Connect ⟨2, 0⟩, .Connect ⟨2, 0⟩] = some m ∧
        (outstanding m ⟨1⟩).length = 2 := by
  refine ⟨⟨rfl, rfl, rfl, _, rfl, by decide, rfl⟩, _, rfl, by decide⟩

/-- C12, amended.  Take any execution from a newly built multiplexer in which
`Connect` is called at most once.  In the state it reaches no connection has
more than one read outstanding.  Completing a pending header read on
connection `s` with a valid buffer returns, and what it does is `lock`,
`unlock` (the channel lookup) and then, for an end-of-stream header,
`OnCloseStream` followed by one header read on `s`, for a data header one
payload read of `header.size` bytes on `s` and no channel callback.  Completing
a pending payload read on `s` with a valid buffer of `header.size` bytes
returns, and what it does is `OnStreamBlock` followed by one header read on
`s`.  In each case the read is the last thing done and it takes the place of
the completed read among the reads owed. -/
theorem per_connection_sequencing (c : Codec) (k : Nat) (ops : List Op)
    (m : ChannelMultiplexer) (hrun : runOps c (ctor k) ops = some m)
    (honce : ops.countP Op.isConnect ≤ 1) :
    (∀ s, (outstanding m s).length ≤ 1) ∧
      (∀ i s n hb, m.dispatcher_.pending[i]? = some ⟨s, n, .header⟩ →
        ∃ m1 ch, applyOp c m (.complete i (.valid hb)) = some m1 ∧
          emitted m m1 = [.lock, .unlock] ++
            (if c.IsStreamEnd (c.ParseHeader hb) then
              [.OnCloseStream ch (m.sender_worker_rank (c.ParseHeader hb)),
                .AsyncRead s c.sizeofHeader .header]
            else [.AsyncRead s (c.ParseHeader hb).size (.block (c.ParseHeader hb) ch)]) ∧
          m1.dispatcher_.pending = m.dispatcher_.pending.eraseIdx i ++
            [if c.IsStreamEnd (c.ParseHeader hb) then ⟨s, c.sizeofHeader, .header⟩
              else ⟨s, (c.ParseHeader hb).size, .block (c.ParseHeader hb) ch⟩] ∧
          ∀ s1, (outstanding m1 s1).length ≤ 1) ∧
      (∀ i s n header ch pb, m.dispatcher_.pending[i]? = some ⟨s, n, .block header ch⟩ →
        pb.length = header.size →
        ∃ m1 blk, applyOp c m (.complete i (.valid pb)) = some m1 ∧
          emitted m m1 =
            [.OnStreamBlock ch (m.sender_worker_rank header) blk,
              .AsyncRead s c.sizeofHeader .header] ∧
          m1.dispatcher_.pending =
            m.dispatcher_.pending.eraseIdx i ++ [⟨s, c.sizeofHeader, .header⟩] ∧
          ∀ s1, (outstanding m1 s1).length ≤ 1) := by
  have hinv := inv_runOps (Inv.ctor k) hrun
  have hone := oneRead_runOps (Inv.ctor k) rfl honce hrun
  refine ⟨outstanding_le_one hone, ?_, ?_⟩
  · intro i s n hb hpend
    obtain ⟨g, hg⟩ := connected_of_pending hinv hpend
    obtain ⟨ch, m1, hok, -, htr, hpen⟩ := OnStreamBlockHeader_valid c
      { m with dispatcher_ :=
        { m.dispatcher_ with pending := m.dispatcher_.pending.eraseIdx i } }
      s hb hg
    have hap : applyOp c m (.complete i (.valid hb)) = some m1 := by
      simp only [applyOp, hpend, invoke, hok, Res.toOption]
    refine ⟨m1, ch, hap, ?_, hpen, ?_⟩
    · dsimp only at htr
      simp [emitted, htr, sender_worker_rank]
    · exact outstanding_le_one (@oneRead_applyOp c m _ (.complete _ _) hone rfl hap)
  · intro i s n header ch pb hpend hsize
    have hok := OnStreamBlock_ok c
      { m with dispatcher_ :=
        { m.dispatcher_ with pending := m.dispatcher_.pending.eraseIdx i } }
      s header ch (.valid pb) (by simp [Buffer.size, Buffer.data, hsize])
    obtain ⟨m1, hok1, htr, hpen⟩ : ∃ m1, OnStreamBlock c
        { m with dispatcher_ :=
          { m.dispatcher_ with pending := m.dispatcher_.pending.eraseIdx i } }
        s header ch (.valid pb) = .ok () m1 ∧
        m1.trace = m.trace ++
          [.OnStreamBlock ch (m.sender_worker_rank header)
              ⟨m.byte_blocks.length, 0, header.size, header.first_item, header.nitems⟩,
            .AsyncRead s c.sizeofHeader .header] ∧
        m1.dispatcher_.pending =
          m.dispatcher_.pending.eraseIdx i ++ [⟨s, c.sizeofHeader, .header⟩] :=
      ⟨_, hok, rfl, rfl⟩
    have hap : applyOp c m (.complete i (.valid pb)) = some m1 := by
      simp only [applyOp, hpend, invoke, hok1, Res.toOption]
    refine ⟨m1, ⟨m.byte_blocks.length, 0, header.size, header.first_item, header.nitems⟩,
      hap, ?_, hpen, ?_⟩
    · simp [emitted, htr]
    · exact outstanding_le_one (@oneRead_applyOp c m _ (.complete _ _) hone rfl hap)

/-- C12 amended, evaluated on the sample state that awaits a payload. -/
theorem per_connection_sequencing_witness :
    (∀ s, (outstanding sampleAwaitPayload s).length ≤ 1) ∧
      (∀ i s n hb, sampleAwaitPayload.dispatcher_.pending[i]? = some ⟨s, n, .header⟩ →
        ∃ m1 ch, applyOp sampleCodec sampleAwaitPayload (.complete i (.valid hb)) = some m1 ∧
          emitted sampleAwaitPayload m1 = [.lock, .unlock] ++
            (if sampleCodec.IsStreamEnd (sampleCodec.ParseHeader hb) then
              [.OnCloseStream ch (sampleAwaitPayload.sender_worker_rank (sampleCodec.ParseHeader hb)),
                .AsyncRead s sampleCodec.sizeofHeader .header]
            else [.AsyncRead s (sampleCodec.ParseHeader hb).size
              (.block (sampleCodec.ParseHeader hb) ch)]) ∧
          m1.dispatcher_.pending = sampleAwaitPayload.dispatcher_.pending.eraseIdx i ++
            [if sampleCodec.IsStreamEnd (sampleCodec.ParseHeader hb) then
              ⟨s, sampleCodec.sizeofHeader, .header⟩
              else ⟨s, (sampleCodec.ParseHeader hb).size, .block (sampleCodec.ParseHeader hb) ch⟩] ∧
          ∀ s1, (outstanding m1 s1).length ≤ 1) ∧
      (∀ i s n header ch pb,
        sampleAwaitPayload.dispatcher_.pending[i]? = some ⟨s, n, .block header ch⟩ →
        pb.length = header.size →
        ∃ m1 blk, applyOp sampleCodec sampleAwaitPayload (.complete i (.valid pb)) = some m1 ∧
          emitted sampleAwaitPayload m1 =
            [.OnStreamBlock ch (sampleAwaitPayload.sender_worker_rank header) blk,
              .AsyncRead s sampleCodec.sizeofHeader .header] ∧
          m1.dispatcher_.pending =
            sampleAwaitPayload.dispatcher_.pending.eraseIdx i ++
              [⟨s, sampleCodec.sizeofHeader, .header⟩] ∧
          ∀ s1, (outstanding m1 s1).length ≤ 1) :=
  per_connection_sequencing sampleCodec 4
    [.Connect ⟨2, 0⟩, .complete 0 (.valid [5, 3, 0, 1, 3, 2, 1])] sampleAwaitPayload rfl
    (by decide)

end c7a
